import Mathlib

/-!
Shallow embedding of the collaborative structured-document editor core:
the entry store (`src/state/entry.ts` / `src/state/state.ts`), the node
handlers (`src/nodes/text.tsx`, `src/nodes/helper/array-nodes.tsx`,
`src/nodes/helper/wrapped-nodes.ts`, `src/nodes/helper/primitive-nodes.ts`,
`src/nodes/multiple-choice.tsx`, `src/nodes/content.tsx`), path resolution
and the command dispatcher (`src/state/state-manager.tsx`).

Conventions of the embedding:
* TypeScript string values are `List Char`; offsets are `Int` (JS numbers).
* A thrown exception (`invariant` failure, property access on `undefined`)
  is the `none` case of an `Option result` paired with the state reached
  so far; a handler's "decline" (`null` return) is `some none` inside the
  payload, distinct from a throw.
* JS `undefined` appearing as an index is `Option.none` in index lists.
-/

set_option maxHeartbeats 1000000

inductive NodeType where
  | root
  | content
  | paragraph
  | text
  | multipleChoice
  | multipleChoiceAnswers
  | multipleChoiceAnswer
  | boolean
deriving DecidableEq, Repr, Inhabited

/-- A key `"{sequence}:{type}"` (`src/state/key.ts`), as a typed pair. -/
structure Key where
  seq : Int
  type : NodeType
deriving DecidableEq, Repr, Inhabited

/-- An index-within-parent: a numeric array position / character offset, or a
named object slot such as `task`; JS `undefined` is represented by wrapping
in `Option` at use sites. -/
inductive Idx where
  | num (n : Int)
  | slot (s : String)
deriving DecidableEq, Repr

/-- The kind-dependent `EntryValue` union. -/
inductive Value where
  | arr (children : List Key)
  | wrap (child : Key)
  | mc (task : Key) (answers : Key)
  | mca (isCorrect : Key) (answer : Key)
  | str (s : List Char)
  | bool (b : Bool)
deriving DecidableEq, Repr, Inhabited

/-- A stored entry `{ type, key, parent, value }`. -/
structure Entry where
  type : NodeType
  key : Key
  parent : Option Key
  value : Value
deriving DecidableEq, Repr, Inhabited

/-- A cursor endpoint: a key plus, for text leaves, a character offset. -/
structure Point where
  key : Key
  index : Option Int := none
deriving DecidableEq, Repr

/-- A cursor `{ start, end }` (the TS field `end` is `stop` here). -/
structure Cursor where
  start : Point
  stop : Point
deriving DecidableEq, Repr

/-- The external kind-tagged JSON value format (`JSONValue`).  Array kinds
serialize as bare lists, wrapped/object kinds carry their `type` tag, and
primitives are bare scalars. -/
inductive JSON where
  | list (xs : List JSON)
  | paragraph (value : JSON)
  | multipleChoice (task : JSON) (answers : JSON)
  | mcAnswer (isCorrect : JSON) (answer : JSON)
  | str (s : List Char)
  | bool (b : Bool)

/-- The observable state of one `WritableState`: the entry map (an
association list where a later `set` shadows by prepending), the stored
cursor, the update counter and the key generator's `lastKey`. -/
structure EditorState where
  entries : List (Key × Entry)
  cursor : Option Cursor
  counter : Nat
  lastKey : Int
deriving DecidableEq, Repr

def lookupE : List (Key × Entry) → Key → Option Entry
  | [], _ => none
  | (k, e) :: rest, key => if k = key then some e else lookupE rest key

/-- `ReadonlyState.getEntry` without the not-found throw: `none` is the
thrown `invariant` failure. -/
def EditorState.getEntry (s : EditorState) (k : Key) : Option Entry :=
  lookupE s.entries k

def EditorState.setEntry (s : EditorState) (k : Key) (e : Entry) : EditorState :=
  { s with entries := (k, e) :: s.entries }

/-- `WritableState.generateKey`: bump `lastKey` and tag with the type. -/
def EditorState.genKey (s : EditorState) (t : NodeType) : Key × EditorState :=
  (⟨s.lastKey + 1, t⟩, { s with lastKey := s.lastKey + 1 })

def EditorState.setCursor (s : EditorState) (c : Option Cursor) : EditorState :=
  { s with cursor := c }

def EditorState.setCaret (s : EditorState) (p : Point) : EditorState :=
  s.setCursor (some ⟨p, p⟩)

/-- `WritableState.incCounter`. -/
def EditorState.incCounter (s : EditorState) : EditorState :=
  { s with counter := s.counter + 1 }

/-- A fresh store: empty map, no cursor, counter `0`, `lastKey = -1`. -/
def initState : EditorState := ⟨[], none, 0, -1⟩

/-- JS `l[i]` for a numeric index; a slot name or out-of-range index gives
`undefined` (`none`). -/
def jsGet {α : Type} (l : List α) (i : Idx) : Option α :=
  match i with
  | .num n => if n < 0 then none else l.get? n.toNat
  | .slot _ => none

/-- JS `Array.prototype.slice(a, b)` with negative-index normalization. -/
def jsSlice {α : Type} (l : List α) (a b : Int) : List α :=
  let len : Int := l.length
  let lo : Int := if a < 0 then max (len + a) 0 else min a len
  let hi : Int := if b < 0 then max (len + b) 0 else min b len
  (l.take hi.toNat).drop lo.toNat

/-- JS `l.slice(a)`. -/
def jsSliceFrom {α : Type} (l : List α) (a : Int) : List α :=
  jsSlice l a l.length

/-- JS `children.filter((_, i) => i !== j)`: keep the elements whose
position differs from `j`. -/
def jsFilterOutIdx {α : Type} (l : List α) (j : Int) : List α :=
  match l with
  | [] => []
  | a :: rest => (if (0 : Int) = j then [] else [a]) ++ jsFilterOutIdx rest (j - 1)

/-- JS `Array.prototype.indexOf`: first position or `-1`. -/
def jsIndexOf (l : List Key) (k : Key) : Int :=
  match l with
  | [] => -1
  | x :: rest =>
    if x = k then 0
    else
      let r := jsIndexOf rest k
      if r = -1 then -1 else r + 1

/-! ## Insertion (`NodeHandler.insert` for every kind)

`insertNode fuel t v parent s` follows the source exactly: the node's own
key is generated first, then the kind-specific `createValue` callback builds
the children (recursively inserting them with the new key as parent), and
only then is the entry stored.  A shape mismatch between `t` and `v` is a
thrown `TypeError` in the source (`getHandler(undefined)` or similar), i.e.
`none`.  The `fuel` argument only bounds the recursion depth; any fuel at
least `sizeOf v` is enough. -/

/-- The `type` tag of an external value, as read by
`getHandler(child.type)`; bare lists and scalars carry no tag. -/
def jsonTag : JSON → Option NodeType
  | .paragraph _ => some .paragraph
  | .multipleChoice _ _ => some .multipleChoice
  | .mcAnswer _ _ => some .multipleChoiceAnswer
  | _ => none

/-- One step of the array handler's `children.map((child) =>
getHandler(child.type).insert(state, key, child).key)` fold: dispatch on the
child's own tag (an untagged child is `getHandler(undefined)`, a throw) and
append the inserted child's key.  `rec` is the recursive insertion. -/
def insertStep (rec : NodeType → JSON → Option Key → EditorState → Option Entry × EditorState)
    (key : Key) (acc : Option (List Key) × EditorState) (x : JSON) :
    Option (List Key) × EditorState :=
  match acc with
  | (none, sa) => (none, sa)
  | (some ks, sa) =>
    match jsonTag x with
    | none => (none, sa)
    | some tg =>
      match rec tg x (some key) sa with
      | (none, sb) => (none, sb)
      | (some e, sb) => (some (ks ++ [e.key]), sb)

def insertNode : Nat → NodeType → JSON → Option Key → EditorState →
    Option Entry × EditorState
  | 0, _, _, _, s => (none, s)
  | fuel + 1, t, v, parent, s =>
    match t with
    | .root | .content | .multipleChoiceAnswers =>
      let (key, s₁) := s.genKey t
      match v with
      | .list xs =>
        match xs.foldl
            (insertStep (fun t2 v2 p2 s2 => insertNode fuel t2 v2 p2 s2) key)
            ((some [], s₁) : Option (List Key) × EditorState) with
        | (none, s₂) => (none, s₂)
        | (some cks, s₂) =>
          let e : Entry := ⟨t, key, parent, .arr cks⟩
          (some e, s₂.setEntry key e)
      | _ => (none, s₁)
    | .paragraph =>
      let (key, s₁) := s.genKey .paragraph
      match v with
      | .paragraph c =>
        match insertNode fuel .text c (some key) s₁ with
        | (none, s₂) => (none, s₂)
        | (some ce, s₂) =>
          let e : Entry := ⟨.paragraph, key, parent, .wrap ce.key⟩
          (some e, s₂.setEntry key e)
      | _ => (none, s₁)
    | .multipleChoice =>
      let (key, s₁) := s.genKey .multipleChoice
      match v with
      | .multipleChoice ta an =>
        match insertNode fuel .content ta (some key) s₁ with
        | (none, s₂) => (none, s₂)
        | (some te, s₂) =>
          match insertNode fuel .multipleChoiceAnswers an (some key) s₂ with
          | (none, s₃) => (none, s₃)
          | (some ae, s₃) =>
            let e : Entry := ⟨.multipleChoice, key, parent, .mc te.key ae.key⟩
            (some e, s₃.setEntry key e)
      | _ => (none, s₁)
    | .multipleChoiceAnswer =>
      let (key, s₁) := s.genKey .multipleChoiceAnswer
      match v with
      | .mcAnswer ic an =>
        match insertNode fuel .boolean ic (some key) s₁ with
        | (none, s₂) => (none, s₂)
        | (some be, s₂) =>
          match insertNode fuel .text an (some key) s₂ with
          | (none, s₃) => (none, s₃)
          | (some ansE, s₃) =>
            let e : Entry := ⟨.multipleChoiceAnswer, key, parent, .mca be.key ansE.key⟩
            (some e, s₃.setEntry key e)
      | _ => (none, s₁)
    | .text =>
      let (key, s₁) := s.genKey .text
      match v with
      | .str cs =>
        let e : Entry := ⟨.text, key, parent, .str cs⟩
        (some e, s₁.setEntry key e)
      | _ => (none, s₁)
    | .boolean =>
      let (key, s₁) := s.genKey .boolean
      match v with
      | .bool b =>
        let e : Entry := ⟨.boolean, key, parent, .bool b⟩
        (some e, s₁.setEntry key e)
      | _ => (none, s₁)

/-- `validB t v`: `v` is a well-typed `JSONValue` of kind `t`
(`src/nodes/types/node-description.ts`); fueled for the nested recursion. -/
def validB : Nat → NodeType → JSON → Bool
  | 0, _, _ => false
  | fuel + 1, t, v =>
    match t, v with
    | .text, .str _ => true
    | .boolean, .bool _ => true
    | .paragraph, .paragraph c => validB fuel .text c
    | .multipleChoice, .multipleChoice ta an =>
      validB fuel .content ta && validB fuel .multipleChoiceAnswers an
    | .multipleChoiceAnswer, .mcAnswer ic an =>
      validB fuel .boolean ic && validB fuel .text an
    | .root, .list xs =>
      xs.all (fun x => validB fuel .paragraph x || validB fuel .multipleChoice x)
    | .content, .list xs => xs.all (fun x => validB fuel .paragraph x)
    | .multipleChoiceAnswers, .list xs =>
      xs.all (fun x => validB fuel .multipleChoiceAnswer x)
    | _, _ => false

/-! ## `createEmpty` for every kind (all static dispatch, no recursion) -/

def TextHandler.createEmpty (parent : Option Key) (s : EditorState) :
    Entry × EditorState :=
  let (key, s₁) := s.genKey .text
  let e : Entry := ⟨.text, key, parent, .str []⟩
  (e, s₁.setEntry key e)

def BooleanHandler.createEmpty (parent : Option Key) (s : EditorState) :
    Entry × EditorState :=
  let (key, s₁) := s.genKey .boolean
  let e : Entry := ⟨.boolean, key, parent, .bool false⟩
  (e, s₁.setEntry key e)

def ParagraphHandler.createEmpty (parent : Option Key) (s : EditorState) :
    Entry × EditorState :=
  let (key, s₁) := s.genKey .paragraph
  let (te, s₂) := TextHandler.createEmpty (some key) s₁
  let e : Entry := ⟨.paragraph, key, parent, .wrap te.key⟩
  (e, s₂.setEntry key e)

def MCAnswerHandler.createEmpty (parent : Option Key) (s : EditorState) :
    Entry × EditorState :=
  let (key, s₁) := s.genKey .multipleChoiceAnswer
  let (be, s₂) := BooleanHandler.createEmpty (some key) s₁
  let (te, s₃) := TextHandler.createEmpty (some key) s₂
  let e : Entry := ⟨.multipleChoiceAnswer, key, parent, .mca be.key te.key⟩
  (e, s₃.setEntry key e)

def ContentHandler.createEmpty (parent : Option Key) (s : EditorState) :
    Entry × EditorState :=
  let (key, s₁) := s.genKey .content
  let (pe, s₂) := ParagraphHandler.createEmpty (some key) s₁
  let e : Entry := ⟨.content, key, parent, .arr [pe.key]⟩
  (e, s₂.setEntry key e)

def RootHandler.createEmpty (parent : Option Key) (s : EditorState) :
    Entry × EditorState :=
  let (key, s₁) := s.genKey .root
  let (pe, s₂) := ParagraphHandler.createEmpty (some key) s₁
  let e : Entry := ⟨.root, key, parent, .arr [pe.key]⟩
  (e, s₂.setEntry key e)

def AnswersHandler.createEmpty (parent : Option Key) (s : EditorState) :
    Entry × EditorState :=
  let (key, s₁) := s.genKey .multipleChoiceAnswers
  let (ae, s₂) := MCAnswerHandler.createEmpty (some key) s₁
  let e : Entry := ⟨.multipleChoiceAnswers, key, parent, .arr [ae.key]⟩
  (e, s₂.setEntry key e)

def MCHandler.createEmpty (parent : Option Key) (s : EditorState) :
    Entry × EditorState :=
  let (key, s₁) := s.genKey .multipleChoice
  let (te, s₂) := ContentHandler.createEmpty (some key) s₁
  let (ae, s₃) := AnswersHandler.createEmpty (some key) s₂
  let e : Entry := ⟨.multipleChoice, key, parent, .mc te.key ae.key⟩
  (e, s₃.setEntry key e)

/-- The array helper's `childHandler.createEmpty` by array kind. -/
def childCreateEmpty (t : NodeType) (parent : Option Key) (s : EditorState) :
    Option Entry × EditorState :=
  match t with
  | .root | .content =>
    let (e, s') := ParagraphHandler.createEmpty parent s
    (some e, s')
  | .multipleChoiceAnswers =>
    let (e, s') := MCAnswerHandler.createEmpty parent s
    (some e, s')
  | _ => (none, s)

/-! ## Reading back (`NodeHandler.read`), fueled -/

/-- The primitive handlers' `read`: the raw stored scalar.  A non-scalar
value cannot occur on a well-typed entry. -/
def readPrim (k : Key) (s : EditorState) : Option JSON :=
  match s.getEntry k with
  | none => none
  | some e =>
    match e.value with
    | .str cs => some (.str cs)
    | .bool b => some (.bool b)
    | _ => none

/-- The array helper's `value.map((childKey) =>
getHandler(childKey).read(state, childKey))`: read every child in order,
propagating a thrown failure.  `rec` is the recursive read. -/
def readChildren (rec : Key → EditorState → Option JSON) :
    List Key → EditorState → Option (List JSON)
  | [], _ => some []
  | c :: rest, s =>
    match rec c s with
    | none => none
    | some j =>
      match readChildren rec rest s with
      | none => none
      | some js => some (j :: js)

mutual

/-- `getHandler(key).read(state, key)`: dynamic dispatch on the key's type. -/
def readNode : Nat → Key → EditorState → Option JSON
  | 0, _, _ => none
  | fuel + 1, k, s =>
    match s.getEntry k with
    | none => none
    | some e =>
      match k.type with
      | .root | .content | .multipleChoiceAnswers =>
        match e.value with
        | .arr cs =>
          (readChildren (fun ck s2 => readNode fuel ck s2) cs s).map .list
        | _ => none
      | .paragraph =>
        match e.type, e.value with
        | .paragraph, .wrap c => (readPrim c s).map .paragraph
        | _, _ => none
      | .multipleChoice =>
        match e.type, e.value with
        | .multipleChoice, .mc tk ak =>
          match readArray fuel tk s, readArray fuel ak s with
          | some tj, some aj => some (.multipleChoice tj aj)
          | _, _ => none
        | _, _ => none
      | .multipleChoiceAnswer =>
        match e.type, e.value with
        | .multipleChoiceAnswer, .mca ik ak =>
          match readPrim ik s, readPrim ak s with
          | some ij, some aj => some (.mcAnswer ij aj)
          | _, _ => none
        | _, _ => none
      | .text | .boolean =>
        match e.value with
        | .str cs => some (.str cs)
        | .bool b => some (.bool b)
        | _ => none

/-- The array helper's `read` applied statically (as `ContentHandler.read`
or `MultipleChoiceAnswersHandler.read` from the multiple-choice handler). -/
def readArray : Nat → Key → EditorState → Option JSON
  | 0, _, _ => none
  | fuel + 1, k, s =>
    match s.getEntry k with
    | none => none
    | some e =>
      match e.value with
      | .arr cs =>
        (readChildren (fun ck s2 => readNode fuel ck s2) cs s).map .list
      | _ => none

end

/-! ## Index lookup and path resolution -/

/-- `getHandler(parent).getIndexWithin(parent, childKey)`: dispatch on the
parent entry's type.  Outer `none` is the thrown programming error; inner
`none` is the wrapped handler's `undefined`. -/
def getIndexWithin (parent : Entry) (childKey : Key) : Option (Option Idx) :=
  match parent.type with
  | .root | .content | .multipleChoiceAnswers =>
    match parent.value with
    | .arr cs => some (some (.num (jsIndexOf cs childKey)))
    | _ => none
  | .paragraph => some none
  | .multipleChoice =>
    match parent.value with
    | .mc tk ak =>
      if childKey = tk then some (some (.slot "task"))
      else if childKey = ak then some (some (.slot "answers"))
      else none
    | _ => none
  | .multipleChoiceAnswer =>
    match parent.value with
    | .mca ik ak =>
      if childKey = ik then some (some (.slot "isCorrect"))
      else if childKey = ak then some (some (.slot "answer"))
      else none
    | _ => none
  | .text | .boolean => none

/-- One frame of `getPathToRoot`'s result: an ancestor entry and the index
at which the next-deeper frame sits inside it (absent on the deepest frame
of a node-level point, and below wrapped parents). -/
structure Frame where
  entry : Entry
  index : Option Idx := none
deriving DecidableEq, Repr

/-- The `while (path[0].entry.parent != null)` loop of `getPathToRoot`. -/
def climb : Nat → List Frame → EditorState → Option (List Frame)
  | 0, _, _ => none
  | fuel + 1, path, s =>
    match path with
    | [] => none
    | top :: _ =>
      match top.entry.parent with
      | none => some path
      | some pk =>
        match s.getEntry pk with
        | none => none
        | some parentE =>
          match getIndexWithin parentE top.entry.key with
          | none => none
          | some idx => climb fuel ({ entry := parentE, index := idx } :: path) s

/-- `getPathToRoot` (`state-manager.tsx` 199-211), root-first. -/
def pathToRoot (fuel : Nat) (p : Point) (s : EditorState) : Option (List Frame) :=
  match s.getEntry p.key with
  | none => none
  | some e => climb fuel [⟨e, p.index.map .num⟩] s

/-! ## Split and merge -/

/-- First element of a destructured index path, JS `undefined` flattened. -/
def headO (l : List (Option Idx)) : Option Idx := l.head?.join

/-- `TextHandler.split` (`text.tsx` 31-45): truncate in place, insert the
right remainder as a fresh text entry. -/
def TextHandler.split (node : Entry) (path : List (Option Idx)) (newParentKey : Option Key)
    (s : EditorState) : Option (Option (Entry × Entry)) × EditorState :=
  match headO path with
  | none => (some none, s)
  | some (.num i) =>
    match node.value with
    | .str v =>
      if i ≥ (v.length : Int) then (some none, s)
      else
        let leftPart := jsSlice v 0 i
        let rightPart := jsSliceFrom v i
        match s.getEntry node.key with
        | none => (none, s)
        | some cur =>
          let leftE : Entry := ⟨cur.type, node.key, cur.parent, .str leftPart⟩
          let s₁ := s.setEntry node.key leftE
          let (nk, s₂) := s₁.genKey .text
          let par := match newParentKey with | some k => some k | none => node.parent
          let rightE : Entry := ⟨.text, nk, par, .str rightPart⟩
          (some (some (leftE, rightE)), s₂.setEntry nk rightE)
    | _ => (none, s)
  | some (.slot _) => (none, s)

/-- The wrapped handler's `split` for `paragraph` (`wrapped-nodes.ts`
51-77): reserve a key, split the child under it, abort if the child
declines.  The `next == null` guard is dead (rest patterns are arrays). -/
def ParagraphHandler.split (node : Entry) (path : List (Option Idx)) (newParentKey : Option Key)
    (s : EditorState) : Option (Option (Entry × Entry)) × EditorState :=
  let next := path.tail
  match node.value with
  | .wrap c =>
    match s.getEntry c with
    | none => (none, s)
    | some child =>
      let (nk, s₁) := s.genKey .paragraph
      match TextHandler.split child next (some nk) s₁ with
      | (none, s₂) => (none, s₂)
      | (some none, s₂) => (some none, s₂)
      | (some (some (_, r)), s₂) =>
        let par := match newParentKey with | some k => some k | none => node.parent
        let pe : Entry := ⟨.paragraph, nk, par, .wrap r.key⟩
        (some (some (node, pe)), s₂.setEntry nk pe)
  | _ => (none, s)

/-- `getHandler(key).split`: array, object and primitive-boolean kinds are
not splittable (`null`). -/
def splitNode (t : NodeType) (node : Entry) (path : List (Option Idx)) (newParentKey : Option Key)
    (s : EditorState) : Option (Option (Entry × Entry)) × EditorState :=
  match t with
  | .text => TextHandler.split node path newParentKey s
  | .paragraph => ParagraphHandler.split node path newParentKey s
  | _ => (some none, s)

/-- `TextHandler.merge` (`text.tsx` 27-30): concatenate the second entry's
value into the first entry. -/
def TextHandler.merge (e1 e2 : Entry) (s : EditorState) : Option (Option Bool) × EditorState :=
  match e2.value with
  | .str q =>
    match s.getEntry e1.key with
    | none => (none, s)
    | some cur =>
      match cur.value with
      | .str p =>
        (some (some true), s.setEntry e1.key ⟨cur.type, e1.key, cur.parent, .str (p ++ q)⟩)
      | _ => (none, s)
  | _ => (none, s)

/-- The wrapped handler's `merge` for `paragraph`: merge the two wrapped
children. -/
def ParagraphHandler.merge (e1 e2 : Entry) (s : EditorState) : Option (Option Bool) × EditorState :=
  match e1.value, e2.value with
  | .wrap c1, .wrap c2 =>
    match s.getEntry c1, s.getEntry c2 with
    | some ch1, some ch2 => TextHandler.merge ch1 ch2 s
    | _, _ => (none, s)
  | _, _ => (none, s)

/-- `getHandler(entry).merge`: array, object and boolean kinds decline. -/
def mergeNode (t : NodeType) (e1 e2 : Entry) (s : EditorState) :
    Option (Option Bool) × EditorState :=
  match t with
  | .text => TextHandler.merge e1 e2 s
  | .paragraph => ParagraphHandler.merge e1 e2 s
  | _ => (some none, s)

/-! ## Selection -/

/-- `TextHandler.select`: caret at the given offset, or at the end of the
value when the path is exhausted. -/
def TextHandler.select (e : Entry) (path : List (Option Idx)) (s : EditorState) :
    Option Unit × EditorState :=
  match headO path with
  | some (.num i) => (some (), s.setCaret ⟨e.key, some i⟩)
  | some (.slot _) => (none, s)
  | none =>
    match e.value with
    | .str v => (some (), s.setCaret ⟨e.key, some (v.length : Int)⟩)
    | _ => (none, s)

/-- The primitive handler's `select` (used for `boolean`). -/
def BooleanHandler.select (e : Entry) (s : EditorState) : Option Unit × EditorState :=
  (some (), s.setCaret ⟨e.key, none⟩)

/-- `getHandler(entry).select`: the array helper's `select` throws
(`not implemented yet`); object kinds recurse statically into their slots. -/
def selectNode (e : Entry) (path : List (Option Idx)) (s : EditorState) :
    Option Unit × EditorState :=
  match e.type with
  | .text => TextHandler.select e path s
  | .boolean => BooleanHandler.select e s
  | .paragraph =>
    match e.value with
    | .wrap c =>
      match s.getEntry c with
      | none => (none, s)
      | some child => TextHandler.select child path.tail s
    | _ => (none, s)
  | .multipleChoice =>
    match headO path with
    | some (.slot sl) =>
      if sl = "task" ∨ sl = "answers" then (none, s)
      else (some (), s.setCaret ⟨e.key, none⟩)
    | _ => (some (), s.setCaret ⟨e.key, none⟩)
  | .multipleChoiceAnswer =>
    match headO path with
    | some (.slot sl) =>
      if sl = "isCorrect" then
        match e.value with
        | .mca ik _ =>
          match s.getEntry ik with
          | none => (none, s)
          | some child => BooleanHandler.select child s
        | _ => (none, s)
      else if sl = "answer" then
        match e.value with
        | .mca _ ak =>
          match s.getEntry ak with
          | none => (none, s)
          | some child => TextHandler.select child path.tail s
        | _ => (none, s)
      else (some (), s.setCaret ⟨e.key, none⟩)
    | _ => (some (), s.setCaret ⟨e.key, none⟩)
  | .root | .content | .multipleChoiceAnswers => (none, s)

/-- The wrapped handler's `selectStart` for `paragraph` (static dispatch to
the text child). -/
def ParagraphHandler.selectStart (e : Entry) (s : EditorState) : Option Unit × EditorState :=
  match e.value with
  | .wrap c =>
    match s.getEntry c with
    | none => (none, s)
    | some child => (some (), s.setCaret ⟨child.key, some 0⟩)
  | _ => (none, s)

mutual

/-- `getHandler(key).selectStart`, dynamic dispatch on the key's type. -/
def selectStartNode : Nat → NodeType → Entry → EditorState → Option Unit × EditorState
  | 0, _, _, s => (none, s)
  | fuel + 1, t, e, s =>
    match t with
    | .text => (some (), s.setCaret ⟨e.key, some 0⟩)
    | .boolean => (some (), s.setCaret ⟨e.key, none⟩)
    | .paragraph =>
      match e.value with
      | .wrap c =>
        match s.getEntry c with
        | none => (none, s)
        | some child => (some (), s.setCaret ⟨child.key, some 0⟩)
      | _ => (none, s)
    | .root | .content | .multipleChoiceAnswers => arraySelectStart fuel e s
    | .multipleChoice =>
      match e.value with
      | .mc tk _ =>
        match s.getEntry tk with
        | none => (none, s)
        | some taskE => arraySelectStart fuel taskE s
      | _ => (none, s)
    | .multipleChoiceAnswer =>
      match e.value with
      | .mca _ ak =>
        match s.getEntry ak with
        | none => (none, s)
        | some ansE => (some (), s.setCaret ⟨ansE.key, some 0⟩)
      | _ => (none, s)

/-- The array helper's `selectStart`: recurse into the first child; a
childless array silently returns. -/
def arraySelectStart : Nat → Entry → EditorState → Option Unit × EditorState
  | 0, _, s => (none, s)
  | fuel + 1, e, s =>
    match e.value with
    | .arr cs =>
      match cs.head? with
      | none => (some (), s)
      | some ck =>
        match s.getEntry ck with
        | none => (none, s)
        | some child => selectStartNode fuel ck.type child s
    | _ => (none, s)

end

mutual

/-- `getHandler(key).selectEnd`, dynamic dispatch on the key's type. -/
def selectEndNode : Nat → NodeType → Entry → EditorState → Option Unit × EditorState
  | 0, _, _, s => (none, s)
  | fuel + 1, t, e, s =>
    match t with
    | .text =>
      match e.value with
      | .str v => (some (), s.setCaret ⟨e.key, some (v.length : Int)⟩)
      | _ => (none, s)
    | .boolean => (some (), s.setCaret ⟨e.key, none⟩)
    | .paragraph =>
      match e.value with
      | .wrap c =>
        match s.getEntry c with
        | none => (none, s)
        | some child =>
          match child.value with
          | .str v => (some (), s.setCaret ⟨child.key, some (v.length : Int)⟩)
          | _ => (none, s)
      | _ => (none, s)
    | .root | .content | .multipleChoiceAnswers => arraySelectEnd fuel e s
    | .multipleChoice =>
      match e.value with
      | .mc _ ak =>
        match s.getEntry ak with
        | none => (none, s)
        | some ansE => arraySelectEnd fuel ansE s
      | _ => (none, s)
    | .multipleChoiceAnswer =>
      match e.value with
      | .mca _ ak =>
        match s.getEntry ak with
        | none => (none, s)
        | some ansE =>
          match ansE.value with
          | .str v => (some (), s.setCaret ⟨ansE.key, some (v.length : Int)⟩)
          | _ => (none, s)
      | _ => (none, s)

/-- The array helper's `selectEnd`: the source calls the last child's
`selectStart`. -/
def arraySelectEnd : Nat → Entry → EditorState → Option Unit × EditorState
  | 0, _, s => (none, s)
  | fuel + 1, e, s =>
    match e.value with
    | .arr cs =>
      match cs.getLast? with
      | none => (some (), s)
      | some ck =>
        match s.getEntry ck with
        | none => (none, s)
        | some child => selectStartNode fuel ck.type child s
    | _ => (none, s)

end

/-! ## Command handlers (`onCommand` tables)

Result convention: outer `none` = thrown exception, `some none` = decline
(`null`), `some (some true)` = `{ success: true }`. -/

/-- `TextHandler.onCommand.insertText` (`text.tsx` 47-57). -/
def TextHandler.onInsertText (node : Entry) (sIdx eIdx : List (Option Idx)) (txt : List Char)
    (s : EditorState) : Option (Option Bool) × EditorState :=
  let index := headO sIdx
  let endIndex := headO eIdx
  if index = none ∨ index ≠ endIndex then (some none, s)
  else
    match index with
    | some (.num i) =>
      match s.getEntry node.key with
      | none => (none, s)
      | some cur =>
        match cur.value with
        | .str p =>
          let s₁ := s.setEntry node.key
            ⟨cur.type, node.key, cur.parent, .str (jsSlice p 0 i ++ txt ++ jsSliceFrom p i)⟩
          (some (some true), s₁.setCaret ⟨node.key, some (i + (txt.length : Int))⟩)
        | _ => (none, s)
    | _ => (none, s)

/-- `TextHandler.onCommand.deleteRange` (`text.tsx` 58-68). -/
def TextHandler.onDeleteRange (node : Entry) (sIdx eIdx : List (Option Idx))
    (s : EditorState) : Option (Option Bool) × EditorState :=
  let start : Idx := (headO sIdx).getD (.num 0)
  let stopE : Option Idx :=
    match headO eIdx with
    | some i => some i
    | none =>
      match node.value with
      | .str v => some (.num (v.length : Int))
      | _ => none
  match stopE with
  | none => (none, s)
  | some stop =>
    if start = stop then (some none, s)
    else
      match start, stop with
      | .num a, .num b =>
        match s.getEntry node.key with
        | none => (none, s)
        | some cur =>
          match cur.value with
          | .str p =>
            let s₁ := s.setEntry node.key
              ⟨cur.type, node.key, cur.parent, .str (jsSlice p 0 a ++ jsSliceFrom p b)⟩
            (some (some true), s₁.setCaret ⟨node.key, some a⟩)
          | _ => (none, s)
      | _, _ => (none, s)

/-- `TextHandler.onCommand.deleteForward` (`text.tsx` 69-77). -/
def TextHandler.onDeleteForward (node : Entry) (sIdx eIdx : List (Option Idx))
    (s : EditorState) : Option (Option Bool) × EditorState :=
  let index := headO sIdx
  let endIndex := headO eIdx
  if index = none ∨ index ≠ endIndex then (some none, s)
  else
    match index with
    | some (.num i) =>
      match node.value with
      | .str v =>
        if i ≥ (v.length : Int) then (some none, s)
        else
          match s.getEntry node.key with
          | none => (none, s)
          | some cur =>
            match cur.value with
            | .str p =>
              let s₁ := s.setEntry node.key
                ⟨cur.type, node.key, cur.parent, .str (jsSlice p 0 i ++ jsSliceFrom p (i + 1))⟩
              (some (some true), s₁.setCaret ⟨node.key, some i⟩)
            | _ => (none, s)
      | _ => (none, s)
    | _ => (none, s)

/-- `TextHandler.onCommand.deleteBackward` (`text.tsx` 78-86). -/
def TextHandler.onDeleteBackward (node : Entry) (sIdx eIdx : List (Option Idx))
    (s : EditorState) : Option (Option Bool) × EditorState :=
  let index := headO sIdx
  let endIndex := headO eIdx
  if index = none ∨ index ≠ endIndex then (some none, s)
  else
    match index with
    | some (.num i) =>
      if i ≤ 0 then (some none, s)
      else
        match s.getEntry node.key with
        | none => (none, s)
        | some cur =>
          match cur.value with
          | .str p =>
            let s₁ := s.setEntry node.key
              ⟨cur.type, node.key, cur.parent, .str (jsSlice p 0 (i - 1) ++ jsSliceFrom p i)⟩
            (some (some true), s₁.setCaret ⟨node.key, some (i - 1)⟩)
          | _ => (none, s)
    | _ => (none, s)

/-- The guarded merge of `deleteRange`:
`if (left && right && left.type === right.type) getHandler(left).merge(...)`. -/
def mergeStep (left right : Option Entry) (s : EditorState) :
    Option (Option Bool) × EditorState :=
  match left, right with
  | some l, some r => if l.type = r.type then mergeNode l.type l r s else (some none, s)
  | _, _ => (some none, s)

/-- The guarded merge of `deleteForward`/`deleteBackward`:
`if (a.type === b.type) getHandler(a).merge(state, a, b)`. -/
def mergeIfSame (a b : Entry) (s : EditorState) : Option (Option Bool) × EditorState :=
  if a.type = b.type then mergeNode a.type a b s else (some none, s)

/-- The numeric cut position of a range boundary: a slot index cuts at 0. -/
def cutAt : Idx → Int
  | .num i => i
  | .slot _ => 0

/-- `left ? [left.key] : []`. -/
def keyOfOpt : Option Entry → List Key
  | some l => [l.key]
  | none => []

/-- The children kept after the end boundary: everything past a numeric
index, the whole list for a slot. -/
def tailFrom (children : List Key) : Idx → List Key
  | .num j => jsSliceFrom children (j + 1)
  | .slot _ => children

/-- The splice position after the current child in `insertNewElement`:
`index + 1` for a numeric index, `0` for a slot. -/
def insertCutAt : Idx → Int
  | .num i => i + 1
  | .slot _ => 0

/-- `createArrayHandler.onCommand.deleteRange` (`array-nodes.tsx` 74-134):
split the boundary children, merge the halves when same-kind, splice, and
back-fill an emptied array with one empty paragraph. -/
def ArrayHandler.onDeleteRange (node : Entry) (sIdx eIdx : List (Option Idx))
    (s : EditorState) : Option (Option Bool) × EditorState :=
  let startNext := sIdx.tail
  let endNext := eIdx.tail
  let start : Idx := (headO sIdx).getD (.num 0)
  let stopE : Option Idx :=
    match headO eIdx with
    | some i => some i
    | none =>
      match node.value with
      | .arr v => some (.num (v.length : Int))
      | _ => none
  match stopE with
  | none => (none, s)
  | some stop =>
    if start = stop then (some none, s)
    else
      match node.value with
      | .arr value =>
        match jsGet value start with
          | none => (none, s)
          | some sk =>
            match s.getEntry sk with
            | none => (none, s)
            | some se =>
              match splitNode sk.type se startNext none s with
              | (none, s₁) => (none, s₁)
              | (some so, s₁) =>
                let left : Option Entry := so.map (fun pr => pr.1)
                match jsGet value stop with
                | none => (none, s₁)
                | some ek =>
                  match s₁.getEntry ek with
                  | none => (none, s₁)
                  | some ee =>
                    match splitNode ek.type ee endNext none s₁ with
                    | (none, s₂) => (none, s₂)
                    | (some eo, s₂) =>
                      let right : Option Entry := eo.map (fun pr => pr.2)
                      match mergeStep left right s₂ with
                      | (none, s₃) => (none, s₃)
                      | (some _, s₃) =>
                        match s₃.getEntry node.key with
                        | none => (none, s₃)
                        | some cur =>
                          match cur.value with
                          | .arr children =>
                            let newChildren :=
                              jsSlice children 0 (cutAt start) ++
                              keyOfOpt left ++ tailFrom children stop
                            if newChildren.length > 0 then
                              match jsGet newChildren start with
                              | none => (none, s₃)
                              | some nk =>
                                match s₃.getEntry nk with
                                | none => (none, s₃)
                                | some ne =>
                                  match selectNode ne startNext s₃ with
                                  | (none, s₄) => (none, s₄)
                                  | (some _, s₄) =>
                                    (some (some true),
                                      s₄.setEntry node.key ⟨cur.type, node.key, cur.parent, .arr newChildren⟩)
                            else
                              let (pe, s₄) := ParagraphHandler.createEmpty (some node.key) s₃
                              match ParagraphHandler.selectStart pe s₄ with
                              | (none, s₅) => (none, s₅)
                              | (some _, s₅) =>
                                (some (some true),
                                  s₅.setEntry node.key ⟨cur.type, node.key, cur.parent, .arr [pe.key]⟩)
                          | _ => (none, s₃)
      | _ => (none, s)

/-- The new element of `insertNewElement`: the right half of the split when
the split produced one, otherwise `childHandler.createEmpty`. -/
def newChildOf (t : NodeType) (pk : Key) (so : Option (Entry × Entry)) (s₁ : EditorState) :
    Option Entry × EditorState :=
  match so with
  | some pr => (some pr.2, s₁)
  | none => childCreateEmpty t (some pk) s₁

/-- `createArrayHandler.onCommand.insertNewElement` (`array-nodes.tsx`
135-165): split the child at the cursor (or create an empty one) and
splice it in after the current index. -/
def ArrayHandler.onInsertNewElement (fuel : Nat) (node : Entry) (sIdx eIdx : List (Option Idx))
    (s : EditorState) : Option (Option Bool) × EditorState :=
  let index := headO sIdx
  let next := sIdx.tail
  let endIndex := headO eIdx
  if index = none ∨ index ≠ endIndex then (some none, s)
  else
    match node.value with
    | .arr value =>
      match index with
      | none => (some none, s)
      | some idx =>
        match jsGet value idx with
        | none => (none, s)
        | some ck =>
          match s.getEntry ck with
          | none => (none, s)
          | some ce =>
            match splitNode ck.type ce next (some node.key) s with
            | (none, s₁) => (none, s₁)
            | (some so, s₁) =>
              match newChildOf node.type node.key so s₁ with
              | (none, s₂) => (none, s₂)
              | (some newChild, s₂) =>
                match selectStartNode fuel newChild.type newChild s₂ with
                | (none, s₃) => (none, s₃)
                | (some _, s₃) =>
                  match s₃.getEntry node.key with
                  | none => (none, s₃)
                  | some cur =>
                    match cur.value with
                    | .arr children =>
                      let cut : Int := insertCutAt idx
                      let newChildren :=
                        jsSlice children 0 cut ++ [newChild.key] ++ jsSliceFrom children cut
                      (some (some true),
                        s₃.setEntry node.key ⟨cur.type, node.key, cur.parent, .arr newChildren⟩)
                    | _ => (none, s₃)
    | _ => (none, s)

/-- `createArrayHandler.onCommand.deleteForward` (`array-nodes.tsx`
166-184).  At the last index `value[index + 1]` is `undefined`, so
`getEntry` throws rather than declining. -/
def ArrayHandler.onDeleteForward (node : Entry) (sIdx eIdx : List (Option Idx))
    (s : EditorState) : Option (Option Bool) × EditorState :=
  let index := headO sIdx
  let endIndex := headO eIdx
  if index = none ∨ index ≠ endIndex then (some none, s)
  else
    match node.value with
    | .arr value =>
      if value.length ≤ 1 then (some none, s)
      else
        match index with
        | some (.num i) =>
          if i ≥ (value.length : Int) then (some none, s)
          else
            match jsGet value (.num i) with
            | none => (none, s)
            | some ck =>
              match s.getEntry ck with
              | none => (none, s)
              | some currentChild =>
                match jsGet value (.num (i + 1)) with
                | none => (none, s)
                | some nk =>
                  match s.getEntry nk with
                  | none => (none, s)
                  | some nextChild =>
                    match mergeIfSame currentChild nextChild s with
                    | (none, s₁) => (none, s₁)
                    | (some _, s₁) =>
                      match s₁.getEntry node.key with
                      | none => (none, s₁)
                      | some cur =>
                        match cur.value with
                        | .arr children =>
                          (some (some true),
                            s₁.setEntry node.key
                              ⟨cur.type, node.key, cur.parent, .arr (jsFilterOutIdx children (i + 1))⟩)
                        | _ => (none, s₁)
        | _ => (none, s)
    | _ => (none, s)

/-- `createArrayHandler.onCommand.deleteBackward` (`array-nodes.tsx`
185-204). -/
def ArrayHandler.onDeleteBackward (fuel : Nat) (node : Entry) (sIdx eIdx : List (Option Idx))
    (s : EditorState) : Option (Option Bool) × EditorState :=
  let index := headO sIdx
  let endIndex := headO eIdx
  if index = none ∨ index ≠ endIndex then (some none, s)
  else
    match node.value with
    | .arr value =>
      if value.length ≤ 1 then (some none, s)
      else
        match index with
        | some (.num i) =>
          if i ≤ 0 then (some none, s)
          else
            match jsGet value (.num i) with
            | none => (none, s)
            | some ck =>
              match s.getEntry ck with
              | none => (none, s)
              | some currentChild =>
                match jsGet value (.num (i - 1)) with
                | none => (none, s)
                | some pk =>
                  match s.getEntry pk with
                  | none => (none, s)
                  | some previousChild =>
                    match selectEndNode fuel previousChild.type previousChild s with
                    | (none, s₁) => (none, s₁)
                    | (some _, s₁) =>
                      match mergeIfSame previousChild currentChild s₁ with
                      | (none, s₂) => (none, s₂)
                      | (some _, s₂) =>
                        match s₂.getEntry node.key with
                        | none => (none, s₂)
                        | some cur =>
                          match cur.value with
                          | .arr children =>
                            (some (some true),
                              s₂.setEntry node.key
                                ⟨cur.type, node.key, cur.parent, .arr (jsFilterOutIdx children i)⟩)
                          | _ => (none, s₂)
        | _ => (none, s)
    | _ => (none, s)

/-! ## The command dispatcher -/

inductive Cmd where
  | insertText (text : List Char)
  | insertNewElement
  | deleteRange
  | deleteForward
  | deleteBackward
  | addParagraph
  | addMultipleChoice
deriving DecidableEq, Repr

/-- `getHandler(targetNode.type).onCommand[command]?.(...)`: an absent table
entry declines; `MultipleChoiceHandler` answers `deleteForward` and
`deleteBackward` with a bare success. -/
def runHandler (fuel : Nat) (target : Entry) (cmd : Cmd) (sIdx eIdx : List (Option Idx))
    (s : EditorState) : Option (Option Bool) × EditorState :=
  match target.type, cmd with
  | .text, .insertText txt => TextHandler.onInsertText target sIdx eIdx txt s
  | .text, .deleteRange => TextHandler.onDeleteRange target sIdx eIdx s
  | .text, .deleteForward => TextHandler.onDeleteForward target sIdx eIdx s
  | .text, .deleteBackward => TextHandler.onDeleteBackward target sIdx eIdx s
  | .root, .deleteRange | .content, .deleteRange | .multipleChoiceAnswers, .deleteRange =>
    ArrayHandler.onDeleteRange target sIdx eIdx s
  | .root, .insertNewElement | .content, .insertNewElement
  | .multipleChoiceAnswers, .insertNewElement =>
    ArrayHandler.onInsertNewElement fuel target sIdx eIdx s
  | .root, .deleteForward | .content, .deleteForward | .multipleChoiceAnswers, .deleteForward =>
    ArrayHandler.onDeleteForward target sIdx eIdx s
  | .root, .deleteBackward | .content, .deleteBackward | .multipleChoiceAnswers, .deleteBackward =>
    ArrayHandler.onDeleteBackward fuel target sIdx eIdx s
  | .multipleChoice, .deleteForward => (some (some true), s)
  | .multipleChoice, .deleteBackward => (some (some true), s)
  | _, _ => (some none, s)

/-- The ancestor-bubbling retry loop of `dispatchCommand` (`state-manager`
173-192): the remaining common-path frames, deepest first; a popped frame's
index is prepended to both narrowed index paths.  A `{success: false}`
result would also fall through to the pop, as in the source. -/
def bubble (fuel : Nat) (frames : List Frame) (target : Entry) (cmd : Cmd)
    (sIdx eIdx : List (Option Idx)) (s : EditorState) : Option Bool × EditorState :=
  match runHandler fuel target cmd sIdx eIdx s with
  | (none, s') => (none, s')
  | (some res, s') =>
    if res = some true then (some true, s')
    else
      match frames with
      | [] => (some false, s')
      | f :: rest => bubble fuel rest f.entry cmd (f.index :: sIdx) (f.index :: eIdx) s'

/-- The fixed paragraph inserted by `Command.AddParagraph`. -/
def paragraphSample : JSON := .paragraph (.str ['.', '.', '.'])

/-- The fixed quiz inserted by `Command.AddMultipleChoice`. -/
def mcSample : JSON :=
  .multipleChoice
    (.list [.paragraph (.str "What is 2 + 2?".data)])
    (.list [
      .mcAnswer (.bool false) (.str ['3']),
      .mcAnswer (.bool true) (.str ['4']),
      .mcAnswer (.bool false) (.str ['5'])])

/-- Insert a new top-level element and append its key to the root's child
list (`state-manager.tsx` 108-139). -/
def addElem (fuel : Nat) (t : NodeType) (v : JSON) (rootKey : Key) (s : EditorState) :
    Option Unit × EditorState :=
  match insertNode fuel t v (some rootKey) s with
  | (none, s₁) => (none, s₁)
  | (some e, s₁) =>
    match s₁.getEntry rootKey with
    | none => (none, s₁)
    | some re =>
      match re.value with
      | .arr cs =>
        (some (), s₁.setEntry rootKey ⟨re.type, rootKey, re.parent, .arr (cs ++ [e.key])⟩)
      | _ => (none, s₁)

/-- The `AddParagraph`/`AddMultipleChoice` block at the top of
`dispatchCommand`. -/
def addStage (fuel : Nat) (cmd : Cmd) (rootKey : Key) (s : EditorState) :
    Option Unit × EditorState :=
  match cmd with
  | .addParagraph => addElem fuel .paragraph paragraphSample rootKey s
  | .addMultipleChoice => addElem fuel .multipleChoice mcSample rootKey s
  | _ => (some (), s)

/-- The range-based part of `dispatchCommand` (`state-manager.tsx`
156-194): resolve both paths, find the common prefix by entry identity,
narrow the index paths from one frame above the divergence, and bubble.
`es-toolkit`'s `zip` pads the shorter path with `undefined`, so a fully
matching prefix over paths of different lengths dereferences `undefined`
and throws. -/
def rangeStage (fuel : Nat) (cmd : Cmd) (s : EditorState) : Option Bool × EditorState :=
  match s.cursor with
  | none => (none, s)
  | some cur =>
    match pathToRoot fuel cur.start s, pathToRoot fuel cur.stop s with
    | some sp, some ep =>
      let zipped := sp.zip ep
      let pref := zipped.takeWhile (fun ab => ab.1.entry.key == ab.2.entry.key)
      if pref.length = zipped.length ∧ sp.length ≠ ep.length then (none, s)
      else
        let common := pref.map (fun ab => ab.1)
        let sIdx := (sp.drop (common.length - 1)).map (fun fr => fr.index)
        let eIdx := (ep.drop (common.length - 1)).map (fun fr => fr.index)
        match common.reverse with
        | f :: rest => bubble fuel rest f.entry cmd sIdx eIdx s
        | [] =>
          match sp with
          | f :: _ => bubble fuel [] f.entry cmd sIdx eIdx s
          | [] => (none, s)
    | _, _ => (none, s)

/-- `StateManager.dispatchCommand` (`state-manager.tsx` 99-197), at the
store level (the surrounding `update` batching only affects the counter):
run the add-element block, succeed vacuously without a cursor, reduce a
non-collapsed range by a recursive `deleteRange` first (aborting on its
failure, and stopping right there for `deleteForward`/`deleteBackward`),
then run the range-based ancestor-bubbling dispatch. -/
def dispatchCommand : Nat → Cmd → Key → EditorState → Option Bool × EditorState
  | 0, _, _, s => (none, s)
  | fuel + 1, cmd, rootKey, s =>
    match addStage fuel cmd rootKey s with
    | (none, s₁) => (none, s₁)
    | (some _, s₁) =>
      match s₁.cursor with
      | none => (some true, s₁)
      | some cur =>
        if cmd ≠ .deleteRange ∧ cur.start ≠ cur.stop then
          match dispatchCommand fuel .deleteRange rootKey s₁ with
          | (none, s₂) => (none, s₂)
          | (some false, s₂) => (some false, s₂)
          | (some true, s₂) =>
            if cmd = .deleteForward ∨ cmd = .deleteBackward then (some true, s₂)
            else rangeStage fuel cmd s₂
        else rangeStage fuel cmd s₁

/-! ## The state manager's update batching (`StateManager.update`) -/

/-- `StateManager`'s notification bookkeeping: the store, the re-entrancy
depth `updateCallDepth`, the manager's `lastUpdateCount` snapshot and how
many times the listeners have been notified. -/
structure Mgr where
  store : EditorState
  depth : Nat
  lastUpdateCount : Nat
  notifyCount : Nat
deriving DecidableEq, Repr

/-- `updateFunc`: run synchronously by the backend's observer after a
mutation; notifies the listeners only when the counter moved. -/
def checkNotify (m : Mgr) : Mgr :=
  if m.lastUpdateCount ≠ m.store.counter then
    { m with lastUpdateCount := m.store.counter, notifyCount := m.notifyCount + 1 }
  else m

/-- `StateManager.update` (`state-manager.tsx` 75-84): raise the depth, run
the callback, lower it, and only at depth zero bump the store counter (the
observer then fires). -/
def Mgr.update (f : Mgr → Mgr) (m : Mgr) : Mgr :=
  let m₁ := { m with depth := m.depth + 1 }
  let m₂ := f m₁
  let m₃ := { m₂ with depth := m₂.depth - 1 }
  if m₃.depth = 0 then checkNotify { m₃ with store := m₃.store.incCounter } else m₃

/-- One raw store mutation inside a batch (an `entries.set`), with the
backend's synchronous observer firing after it. -/
def Mgr.mutate (f : EditorState → EditorState) (m : Mgr) : Mgr :=
  checkNotify { m with store := f m.store }

/-! ## Concrete stores used by the claim theorems -/

/-- A store holding a root with one paragraph `"ab"`:
root `⟨0⟩` → paragraph `⟨1⟩` → text `⟨2⟩`. -/
def demoStore : EditorState :=
  (insertNode 9 .root (.list [.paragraph (.str ['a', 'b'])]) none initState).2

def rootK : Key := ⟨0, .root⟩
def paraK : Key := ⟨1, .paragraph⟩
def textK : Key := ⟨2, .text⟩

/-- A store holding a root with two paragraphs `"ab"`, `"cd"`. -/
def demo2 : EditorState :=
  (insertNode 9 .root
    (.list [.paragraph (.str ['a', 'b']), .paragraph (.str ['c', 'd'])]) none initState).2

def para2K : Key := ⟨3, .paragraph⟩
def text2K : Key := ⟨4, .text⟩

def demo2RootEntry : Entry := ⟨.root, rootK, none, .arr [paraK, para2K]⟩

/-- `demoStore` with a collapsed offset-1 cursor inside the text leaf. -/
def c5Store : EditorState :=
  demoStore.setCursor (some ⟨⟨textK, some 1⟩, ⟨textK, some 1⟩⟩)

/-- The text entry of `demoStore` as fetched by the dispatcher. -/
def c5TextEntry : Entry := ⟨.text, textK, some paraK, .str ['a', 'b']⟩

/-- The outcome of the text leaf's own `insertText` handler on `c5Store`. -/
def c5LeafResult : Option (Option Bool) × EditorState :=
  TextHandler.onInsertText c5TextEntry [some (.num 1)] [some (.num 1)] ['x'] c5Store

/-- `demo2` with the caret collapsed at the end of the second (last)
paragraph's text. -/
def c7Store : EditorState :=
  demo2.setCursor (some ⟨⟨text2K, some 2⟩, ⟨text2K, some 2⟩⟩)

/-- `demoStore` with a node-level (offset-free) collapsed cursor on the
text leaf. -/
def c6Store : EditorState :=
  demoStore.setCursor (some ⟨⟨textK, none⟩, ⟨textK, none⟩⟩)

/-! ## Store well-formedness -/

/-- Every stored key's sequence number is bounded by `lastKey` (true of any
store built through `generateKey`/`insert`). -/
def keyBound (s : EditorState) : Prop :=
  ∀ p ∈ s.entries, p.1.seq ≤ s.lastKey

instance (s : EditorState) : Decidable (keyBound s) := by
  unfold keyBound; infer_instance

/-- One handler insertion request: recursion fuel, kind, external value and
parent key. -/
structure InsOp where
  fuel : Nat
  type : NodeType
  value : JSON
  parent : Option Key

/-- Run a sequence of handler insertions against one writable store. -/
def runInserts (ops : List InsOp) (s : EditorState) : EditorState :=
  ops.foldl (fun st op => (insertNode op.fuel op.type op.value op.parent st).2) s

/-- The footprint of an insertion: only fresh entries (sequence numbers
strictly above the old `lastKey`) are prepended, with pairwise-distinct new
keys; `lastKey` never decreases; cursor and counter are untouched. -/
def InsertsFresh (s s' : EditorState) : Prop :=
  (∃ new, s'.entries = new ++ s.entries ∧
    (∀ p ∈ new, s.lastKey < p.1.seq ∧ p.1.seq ≤ s'.lastKey) ∧
    (new.map (fun p => p.1)).Nodup) ∧
  s.lastKey ≤ s'.lastKey ∧ s'.cursor = s.cursor ∧ s'.counter = s.counter

/-- `s₂` extends `s₁` only with entries whose keys do not occur in `s₁`:
every lookup that succeeds on `s₁` is unaffected. -/
def FreshExt (s₁ s₂ : EditorState) : Prop :=
  ∃ new, s₂.entries = new ++ s₁.entries ∧
    ∀ p ∈ new, ∀ q ∈ s₁.entries, p.1 ≠ q.1

/-- Three sequential nested `update` calls, each wrapping one raw store
mutation, as performed inside one outer `update`. -/
def nestedThree (f1 f2 f3 : EditorState → EditorState) (mm : Mgr) : Mgr :=
  Mgr.update (Mgr.mutate f3) (Mgr.update (Mgr.mutate f2) (Mgr.update (Mgr.mutate f1) mm))

/-- `demoStore` with a non-collapsed cursor over the first character of the
text leaf. -/
def c4Store : EditorState :=
  demoStore.setCursor (some ⟨⟨textK, some 0⟩, ⟨textK, some 1⟩⟩)

/-- A path frame whose handler is guaranteed to decline `deleteRange` on
equal narrowed index paths: either the frame carries an index (every
handler declines when its computed start equals its end), or its entry's
kind has no `deleteRange` handler at all. -/
def frameSafe (fr : Frame) : Prop :=
  fr.index ≠ none ∨ fr.entry.type = .paragraph ∨ fr.entry.type = .multipleChoice ∨
    fr.entry.type = .multipleChoiceAnswer ∨ fr.entry.type = .boolean

/-- The array-value guard of the non-emptiness invariant. -/
def nonemptyArr : Value → Bool
  | .arr cs => !cs.isEmpty
  | _ => true

/-- Array non-emptiness: every stored array-of-children entry holds at
least one child key. -/
def ANE (s : EditorState) : Prop :=
  ∀ p ∈ s.entries, nonemptyArr p.2.value = true

instance (s : EditorState) : Decidable (ANE s) := by
  unfold ANE; infer_instance

/-- External values with no empty array level, as both fixed add-element
samples are. -/
inductive NoEmptyLists : JSON → Prop where
  | list {xs : List JSON} : xs ≠ [] → (∀ x ∈ xs, NoEmptyLists x) → NoEmptyLists (.list xs)
  | paragraph {c : JSON} : NoEmptyLists c → NoEmptyLists (.paragraph c)
  | multipleChoice {a b : JSON} : NoEmptyLists a → NoEmptyLists b →
      NoEmptyLists (.multipleChoice a b)
  | mcAnswer {a b : JSON} : NoEmptyLists a → NoEmptyLists b → NoEmptyLists (.mcAnswer a b)
  | str {cs : List Char} : NoEmptyLists (.str cs)
  | bool {b : Bool} : NoEmptyLists (.bool b)

/-- Run a list of commands through the dispatcher. -/
def runCmds (fuel : Nat) (cmds : List Cmd) (rootKey : Key) (s : EditorState) : EditorState :=
  cmds.foldl (fun st c => (dispatchCommand fuel c rootKey st).2) s

/-! # Theorems -/

theorem lookupE_some_mem {l : List (Key × Entry)} {k : Key} {e : Entry}
    (h : lookupE l k = some e) : (k, e) ∈ l := by
  induction l with
  | nil => simp [lookupE] at h
  | cons p rest ih =>
    obtain ⟨a, b⟩ := p
    rw [lookupE] at h
    by_cases hk : a = k
    · rw [if_pos hk] at h
      injection h with h2
      rw [hk, h2] at *
      exact List.mem_cons_self _ _
    · rw [if_neg hk] at h
      exact List.mem_cons_of_mem _ (ih h)

theorem keyBound_seq_le {s : EditorState} {k : Key} {e : Entry}
    (hb : keyBound s) (h : s.getEntry k = some e) : k.seq ≤ s.lastKey :=
  hb (k, e) (lookupE_some_mem h)

theorem lookupE_set (s : EditorState) (k k' : Key) (e : Entry) :
    (s.setEntry k' e).getEntry k = if k' = k then some e else s.getEntry k := rfl

theorem jsSlice_zero_take {α : Type} (l : List α) (i : Nat) :
    jsSlice l 0 (i : Int) = l.take i := by
  unfold jsSlice
  have h1 : (min (0:Int) l.length).toNat = 0 := by omega
  have h2 : (min (i:Int) (l.length:Int)).toNat = min i l.length := by omega
  simp only [if_neg (show ¬((0:Int) < 0) by omega), if_neg (show ¬((i:Int) < 0) by omega)]
  rw [h1, h2, List.drop_zero]
  rcases Nat.le_total i l.length with h | h
  · rw [Nat.min_eq_left h]
  · rw [Nat.min_eq_right h, List.take_length, List.take_of_length_le h]

theorem jsSliceFrom_drop {α : Type} (l : List α) (i : Nat) :
    jsSliceFrom l (i : Int) = l.drop i := by
  unfold jsSliceFrom jsSlice
  simp only [if_neg (show ¬((i:Int) < 0) by omega),
    if_neg (show ¬((l.length:Int) < 0) by omega)]
  have h1 : (min (l.length:Int) (l.length:Int)).toNat = l.length := by omega
  have h2 : (min (i:Int) (l.length:Int)).toNat = min i l.length := by omega
  rw [h1, h2, List.take_length]
  rcases Nat.le_total i l.length with h | h
  · rw [Nat.min_eq_left h]
  · rw [Nat.min_eq_right h, List.drop_length, List.drop_of_length_le h]

/-- Claim C5: dispatching `insertText("x")` with the cursor collapsed at
offset 1 inside the leaf holding `"ab"` succeeds, leaves the leaf holding
`"axb"` with a new collapsed cursor at offset 2, and the final state is
exactly the state produced by the text leaf's own `insertText` handler
(the first handler tried): the command is resolved at the leaf without any
ancestor-bubbling retry. -/
theorem c5_dispatch_locality :
    dispatchCommand 6 (.insertText ['x']) rootK c5Store = (some true, c5LeafResult.2) ∧
    c5LeafResult.1 = some (some true) ∧
    c5LeafResult.2.getEntry textK = some ⟨.text, textK, some paraK, .str ['a', 'x', 'b']⟩ ∧
    c5LeafResult.2.cursor = some ⟨⟨textK, some 2⟩, ⟨textK, some 2⟩⟩ := by
  refine ⟨by decide, by decide, by decide, by decide⟩

/-- Claim C7 (code bug): the array `deleteForward` handler does not decline
at the last index.  On a root with two paragraphs and the collapsed index
at the last child (index 1), it evaluates `state.getEntry(value[index+1])`
with `value[2] === undefined` and throws (`none`), and the surrounding
dispatch of `deleteForward` with the caret at the very end of the document
therefore throws as well; `deleteBackward` at its boundary (index 0)
declines (`some none`) as specified. -/
theorem c7_deleteForward_boundary_throws :
    (ArrayHandler.onDeleteForward demo2RootEntry [some (.num 1)] [some (.num 1)] demo2).1 =
      none ∧
    (dispatchCommand 8 .deleteForward rootK c7Store).1 = none ∧
    (ArrayHandler.onDeleteBackward 8 demo2RootEntry [some (.num 0)] [some (.num 0)] demo2).1 =
      some none := by
  refine ⟨by decide, by decide, by decide⟩

/-- Claim C2 counterexample: splitting the leaf holding `"ab"` at index
`2 = len("ab")` declines (returns `null`) and changes nothing — no left and
right entries are produced, so the split-then-merge round trip claimed for
all `0 ≤ i ≤ len(s)` does not exist at `i = len(s)`. -/
theorem c2_counterexample :
    TextHandler.split ⟨.text, textK, some paraK, .str ['a', 'b']⟩ [some (.num 2)] none
      demoStore = (some none, demoStore) := by
  decide

/-- Claim C2 (amended): for every stored text leaf holding `s` and every
index `0 ≤ i < len(s)` (at `i = len(s)` the split declines instead),
splitting at `i` yields a left and a right entry whose merge restores a
leaf holding exactly `s`. -/
theorem c2_split_merge_inverse (s : EditorState) (k : Key) (par : Option Key)
    (v : List Char) (i : Nat)
    (hb : keyBound s) (hk : s.getEntry k = some ⟨.text, k, par, .str v⟩)
    (hi : i < v.length) :
    ∃ l r s₁ s₂,
      TextHandler.split ⟨.text, k, par, .str v⟩ [some (.num (i : Int))] none s =
        (some (some (l, r)), s₁) ∧
      TextHandler.merge l r s₁ = (some (some true), s₂) ∧
      s₂.getEntry k = some ⟨.text, k, par, .str v⟩ := by
  have hne : (⟨s.lastKey + 1, .text⟩ : Key) ≠ k := by
    intro hEq
    have h1 := keyBound_seq_le hb hk
    rw [← hEq] at h1
    have h2 : s.lastKey + 1 ≤ s.lastKey := h1
    omega
  have hlt : ¬ ((i : Int) ≥ (v.length : Int)) := by
    omega
  refine ⟨⟨.text, k, par, .str (v.take i)⟩,
    ⟨.text, ⟨s.lastKey + 1, .text⟩, par, .str (v.drop i)⟩,
    ⟨(⟨s.lastKey + 1, .text⟩, ⟨.text, ⟨s.lastKey + 1, .text⟩, par, .str (v.drop i)⟩) ::
      (k, ⟨.text, k, par, .str (v.take i)⟩) :: s.entries, s.cursor, s.counter, s.lastKey + 1⟩,
    ⟨(k, ⟨.text, k, par, .str v⟩) ::
      (⟨s.lastKey + 1, .text⟩, ⟨.text, ⟨s.lastKey + 1, .text⟩, par, .str (v.drop i)⟩) ::
      (k, ⟨.text, k, par, .str (v.take i)⟩) :: s.entries, s.cursor, s.counter, s.lastKey + 1⟩,
    ?_, ?_, ?_⟩
  · unfold TextHandler.split
    simp only [headO, List.head?, Option.join, Option.some_bind, id_eq, if_neg hlt, hk,
      EditorState.setEntry, EditorState.genKey, jsSlice_zero_take, jsSliceFrom_drop]
  · unfold TextHandler.merge
    have hlook : (EditorState.getEntry
        ⟨(⟨s.lastKey + 1, .text⟩, ⟨.text, ⟨s.lastKey + 1, .text⟩, par, .str (v.drop i)⟩) ::
          (k, ⟨.text, k, par, .str (v.take i)⟩) :: s.entries, s.cursor, s.counter,
          s.lastKey + 1⟩ k) = some ⟨.text, k, par, .str (v.take i)⟩ := by
      show lookupE _ _ = _
      rw [lookupE]
      rw [if_neg hne, lookupE, if_pos rfl]
    simp only [hlook, EditorState.setEntry, List.take_append_drop]
  · show lookupE _ _ = _
    rw [lookupE, if_pos rfl]

theorem c2_split_merge_inverse_witness :
    ∃ l r s₁ s₂,
      TextHandler.split ⟨.text, textK, some paraK, .str ['a', 'b']⟩
        [some (.num ((1 : Nat) : Int))] none demoStore = (some (some (l, r)), s₁) ∧
      TextHandler.merge l r s₁ = (some (some true), s₂) ∧
      s₂.getEntry textK = some ⟨.text, textK, some paraK, .str ['a', 'b']⟩ :=
  c2_split_merge_inverse demoStore textK (some paraK) ['a', 'b'] 1 (by decide) (by decide)
    (by decide)

theorem jsIndexOf_not_mem {l : List Key} {k : Key} (h : k ∉ l) : jsIndexOf l k = -1 := by
  induction l with
  | nil => rfl
  | cons x rest ih =>
    rw [jsIndexOf]
    rw [List.mem_cons] at h
    push_neg at h
    rw [if_neg (fun hx => h.1 hx.symm)]
    simp [ih h.2]

theorem jsIndexOf_mem {l : List Key} {k : Key} (h : k ∈ l) :
    ∃ n : Nat, jsIndexOf l k = (n : Int) ∧ l.get? n = some k := by
  induction l with
  | nil => simp at h
  | cons x rest ih =>
    rw [jsIndexOf]
    by_cases hx : x = k
    · exact ⟨0, by rw [if_pos hx]; rfl, by simp [hx]⟩
    · have hr : k ∈ rest := by
        rcases List.mem_cons.mp h with h1 | h1
        · exact absurd h1.symm hx
        · exact h1
      obtain ⟨n, hn, hg⟩ := ih hr
      refine ⟨n + 1, ?_, by simpa using hg⟩
      rw [if_neg hx, hn]
      have : ((n : Int)) ≠ -1 := by omega
      simp only [this, if_neg]
      push_cast
      ring

/-- Claim C8 counterexample: for an array entry, `getIndexWithin` with a
key that is not a direct child returns the `indexOf` sentinel `-1` as an
ordinary index instead of failing loudly (and the wrapped `paragraph`
handler returns `undefined` unconditionally) — only object and primitive
kinds throw. -/
theorem c8_counterexample :
    getIndexWithin demo2RootEntry textK = some (some (.num (-1))) ∧
    getIndexWithin ⟨.paragraph, paraK, some rootK, .wrap textK⟩ rootK = some none := by
  refine ⟨by decide, by decide⟩

/-- Claim C8 (amended): `getIndexWithin` returns the position at which
`childKey` sits, but only the object and primitive handlers fail loudly:
the object kinds return the matching slot and throw for a non-child, the
primitive kinds always throw, the array kinds return the `indexOf`
position — the sentinel `-1`, not a throw, when `childKey` is absent — and
the wrapped kind returns `undefined` without failing. -/
theorem c8_getIndexWithin_spec (e : Entry) (ck : Key) :
    (∀ tk ak, e.type = .multipleChoice → e.value = .mc tk ak →
      getIndexWithin e ck =
        if ck = tk then some (some (.slot "task"))
        else if ck = ak then some (some (.slot "answers")) else none) ∧
    (∀ ik ak, e.type = .multipleChoiceAnswer → e.value = .mca ik ak →
      getIndexWithin e ck =
        if ck = ik then some (some (.slot "isCorrect"))
        else if ck = ak then some (some (.slot "answer")) else none) ∧
    (e.type = .text ∨ e.type = .boolean → getIndexWithin e ck = none) ∧
    (e.type = .paragraph → getIndexWithin e ck = some none) ∧
    (∀ cs, (e.type = .root ∨ e.type = .content ∨ e.type = .multipleChoiceAnswers) →
      e.value = .arr cs →
      getIndexWithin e ck = some (some (.num (jsIndexOf cs ck))) ∧
      (ck ∈ cs → ∃ n : Nat, jsIndexOf cs ck = (n : Int) ∧ cs.get? n = some ck) ∧
      (ck ∉ cs → jsIndexOf cs ck = -1)) := by
  obtain ⟨t, k, par, v⟩ := e
  refine ⟨?_, ?_, ?_, ?_, ?_⟩
  · rintro tk ak rfl rfl
    rfl
  · rintro ik ak rfl rfl
    rfl
  · rintro (rfl | rfl) <;> rfl
  · rintro rfl
    rfl
  · rintro cs ht rfl
    refine ⟨?_, fun h => jsIndexOf_mem h, fun h => jsIndexOf_not_mem h⟩
    rcases ht with rfl | rfl | rfl <;> rfl

theorem c8_getIndexWithin_spec_witness :
    getIndexWithin ⟨.text, textK, some paraK, .str ['a', 'b']⟩ rootK = none :=
  (c8_getIndexWithin_spec ⟨.text, textK, some paraK, .str ['a', 'b']⟩ rootK).2.2.1
    (Or.inl rfl)


theorem insertsFresh_refl (s : EditorState) : InsertsFresh s s :=
  ⟨⟨[], rfl, by simp, by simp⟩, le_refl _, rfl, rfl⟩

theorem insertsFresh_trans {s₁ s₂ s₃ : EditorState}
    (h₁ : InsertsFresh s₁ s₂) (h₂ : InsertsFresh s₂ s₃) : InsertsFresh s₁ s₃ := by
  obtain ⟨⟨n₁, he₁, hb₁, hn₁⟩, hl₁, hc₁, hk₁⟩ := h₁
  obtain ⟨⟨n₂, he₂, hb₂, hn₂⟩, hl₂, hc₂, hk₂⟩ := h₂
  refine ⟨⟨n₂ ++ n₁, by rw [he₂, he₁, List.append_assoc], ?_, ?_⟩,
    le_trans hl₁ hl₂, hc₂.trans hc₁, hk₂.trans hk₁⟩
  · intro p hp
    rcases List.mem_append.mp hp with hp | hp
    · exact ⟨lt_of_le_of_lt hl₁ (hb₂ p hp).1, (hb₂ p hp).2⟩
    · exact ⟨(hb₁ p hp).1, le_trans (hb₁ p hp).2 hl₂⟩
  · rw [List.map_append]
    refine List.Nodup.append hn₂ hn₁ ?_
    intro k hk2 hk1
    simp only [List.mem_map] at hk2 hk1
    obtain ⟨p₂, hp₂, hpk₂⟩ := hk2
    obtain ⟨p₁, hp₁, hpk₁⟩ := hk1
    have g₂ := (hb₂ p₂ hp₂).1
    have g₁ := (hb₁ p₁ hp₁).2
    rw [hpk₂] at g₂
    rw [hpk₁] at g₁
    omega

theorem insertsFresh_bump (s : EditorState) :
    InsertsFresh s { s with lastKey := s.lastKey + 1 } :=
  ⟨⟨[], rfl, by simp, by simp⟩, by simp, rfl, rfl⟩

/-- The closing `set(key, entry)` of an `insert`: the reserved key has
sequence `lastKey + 1`, and every entry added while building the value sits
strictly above it. -/
theorem insertsFresh_set_head {s s' : EditorState} (k : Key) (e : Entry)
    (hk : k.seq = s.lastKey + 1)
    (h : InsertsFresh { s with lastKey := s.lastKey + 1 } s') :
    InsertsFresh s (s'.setEntry k e) := by
  obtain ⟨⟨new, he, hb, hn⟩, hl, hc, hcnt⟩ := h
  simp only at he hb hl hc hcnt
  refine ⟨⟨(k, e) :: new, ?_, ?_, ?_⟩, ?_, ?_, ?_⟩
  · simp only [EditorState.setEntry, he]
    rfl
  · intro p hp
    rcases List.mem_cons.mp hp with rfl | hp
    · simp only [EditorState.setEntry]
      omega
    · have := hb p hp
      simp only [EditorState.setEntry]
      omega
  · rw [List.map_cons]
    refine List.nodup_cons.mpr ⟨?_, hn⟩
    intro hmem
    simp only [List.mem_map] at hmem
    obtain ⟨p, hp, hpk⟩ := hmem
    have := (hb p hp).1
    rw [hpk, hk] at this
    omega
  · simp only [EditorState.setEntry]
    omega
  · simp only [EditorState.setEntry, hc]
  · simp only [EditorState.setEntry, hcnt]

theorem foldl_insertsFresh (F : (Option (List Key) × EditorState) → JSON →
      (Option (List Key) × EditorState))
    (hF : ∀ acc x, InsertsFresh acc.2 (F acc x).2) :
    ∀ (xs : List JSON) (acc : Option (List Key) × EditorState),
      InsertsFresh acc.2 ((xs.foldl F acc).2) := by
  intro xs
  induction xs with
  | nil => intro acc; exact insertsFresh_refl _
  | cons x rest ih =>
    intro acc
    rw [List.foldl_cons]
    exact insertsFresh_trans (hF acc x) (ih (F acc x))

theorem insertStep_fresh
    (rec : NodeType → JSON → Option Key → EditorState → Option Entry × EditorState)
    (key : Key) (hrec : ∀ t v p s, InsertsFresh s (rec t v p s).2) :
    ∀ (acc : Option (List Key) × EditorState) (x : JSON),
      InsertsFresh acc.2 ((insertStep rec key acc x).2) := by
  intro acc x
  obtain ⟨ko, sa⟩ := acc
  rw [insertStep.eq_def]
  cases ko with
  | none => exact insertsFresh_refl _
  | some ks =>
    simp only
    cases jsonTag x with
    | none => exact insertsFresh_refl _
    | some tg =>
      simp only
      have h := hrec tg x (some key) sa
      rcases hins : rec tg x (some key) sa with ⟨eo, sb⟩
      rw [hins] at h
      cases eo <;> exact h

/-- Every insertion only adds fresh, pairwise-distinct keys and can only
grow the store. -/
theorem insertNode_fresh :
    ∀ (fuel : Nat) (t : NodeType) (v : JSON) (parent : Option Key) (s : EditorState),
      InsertsFresh s (insertNode fuel t v parent s).2 := by
  intro fuel
  induction fuel with
  | zero =>
    intro t v parent s
    exact insertsFresh_refl s
  | succ fuel ih =>
    intro t v parent s
    rw [insertNode.eq_def]
    have harr : ∀ t0, ∀ xs : List JSON,
        InsertsFresh s
          ((match xs.foldl
              (insertStep (fun t2 v2 p2 s2 => insertNode fuel t2 v2 p2 s2)
                (⟨s.lastKey + 1, t0⟩ : Key))
              ((some [], { s with lastKey := s.lastKey + 1 }) :
                Option (List Key) × EditorState) with
            | (none, s₂) => ((none : Option Entry), s₂)
            | (some cks, s₂) =>
              (some ⟨t0, ⟨s.lastKey + 1, t0⟩, parent, .arr cks⟩,
                s₂.setEntry ⟨s.lastKey + 1, t0⟩ ⟨t0, ⟨s.lastKey + 1, t0⟩, parent, .arr cks⟩)).2) := by
      intro t0 xs
      have hfold := foldl_insertsFresh _
        (insertStep_fresh (fun t2 v2 p2 s2 => insertNode fuel t2 v2 p2 s2)
          (⟨s.lastKey + 1, t0⟩ : Key) (fun a b c d => ih a b c d)) xs
        ((some [], { s with lastKey := s.lastKey + 1 }))
      rcases hres : xs.foldl
          (insertStep (fun t2 v2 p2 s2 => insertNode fuel t2 v2 p2 s2)
            (⟨s.lastKey + 1, t0⟩ : Key))
          ((some [], { s with lastKey := s.lastKey + 1 }) :
            Option (List Key) × EditorState) with ⟨cko, s₂⟩
      rw [hres] at hfold
      simp only at hfold
      cases cko with
      | none => exact insertsFresh_trans (insertsFresh_bump s) hfold
      | some cks => exact insertsFresh_set_head _ _ rfl hfold
    cases t with
    | root =>
      simp only [EditorState.genKey]
      cases v with
      | list xs => exact harr .root xs
      | paragraph c => exact insertsFresh_bump s
      | multipleChoice a b => exact insertsFresh_bump s
      | mcAnswer a b => exact insertsFresh_bump s
      | str c => exact insertsFresh_bump s
      | bool b => exact insertsFresh_bump s
    | content =>
      simp only [EditorState.genKey]
      cases v with
      | list xs => exact harr .content xs
      | paragraph c => exact insertsFresh_bump s
      | multipleChoice a b => exact insertsFresh_bump s
      | mcAnswer a b => exact insertsFresh_bump s
      | str c => exact insertsFresh_bump s
      | bool b => exact insertsFresh_bump s
    | multipleChoiceAnswers =>
      simp only [EditorState.genKey]
      cases v with
      | list xs => exact harr .multipleChoiceAnswers xs
      | paragraph c => exact insertsFresh_bump s
      | multipleChoice a b => exact insertsFresh_bump s
      | mcAnswer a b => exact insertsFresh_bump s
      | str c => exact insertsFresh_bump s
      | bool b => exact insertsFresh_bump s
    | paragraph =>
      simp only [EditorState.genKey]
      cases v with
      | paragraph c =>
        simp only
        have h := ih .text c (some ⟨s.lastKey + 1, .paragraph⟩) { s with lastKey := s.lastKey + 1 }
        rcases hins : insertNode fuel .text c (some ⟨s.lastKey + 1, .paragraph⟩)
            { s with lastKey := s.lastKey + 1 } with ⟨eo, s₂⟩
        rw [hins] at h
        cases eo with
        | none => exact insertsFresh_trans (insertsFresh_bump s) h
        | some ce => exact insertsFresh_set_head _ _ rfl h
      | list xs => exact insertsFresh_bump s
      | multipleChoice a b => exact insertsFresh_bump s
      | mcAnswer a b => exact insertsFresh_bump s
      | str c => exact insertsFresh_bump s
      | bool b => exact insertsFresh_bump s
    | multipleChoice =>
      simp only [EditorState.genKey]
      cases v with
      | multipleChoice ta an =>
        simp only
        have h₁ := ih .content ta (some ⟨s.lastKey + 1, .multipleChoice⟩)
          { s with lastKey := s.lastKey + 1 }
        rcases hins₁ : insertNode fuel .content ta (some ⟨s.lastKey + 1, .multipleChoice⟩)
            { s with lastKey := s.lastKey + 1 } with ⟨eo₁, s₂⟩
        rw [hins₁] at h₁
        cases eo₁ with
        | none => exact insertsFresh_trans (insertsFresh_bump s) h₁
        | some te =>
          simp only
          have h₂ := ih .multipleChoiceAnswers an (some ⟨s.lastKey + 1, .multipleChoice⟩) s₂
          rcases hins₂ : insertNode fuel .multipleChoiceAnswers an
              (some ⟨s.lastKey + 1, .multipleChoice⟩) s₂ with ⟨eo₂, s₃⟩
          rw [hins₂] at h₂
          cases eo₂ with
          | none => exact insertsFresh_trans (insertsFresh_bump s) (insertsFresh_trans h₁ h₂)
          | some ae => exact insertsFresh_set_head _ _ rfl (insertsFresh_trans h₁ h₂)
      | list xs => exact insertsFresh_bump s
      | paragraph c => exact insertsFresh_bump s
      | mcAnswer a b => exact insertsFresh_bump s
      | str c => exact insertsFresh_bump s
      | bool b => exact insertsFresh_bump s
    | multipleChoiceAnswer =>
      simp only [EditorState.genKey]
      cases v with
      | mcAnswer ic an =>
        simp only
        have h₁ := ih .boolean ic (some ⟨s.lastKey + 1, .multipleChoiceAnswer⟩)
          { s with lastKey := s.lastKey + 1 }
        rcases hins₁ : insertNode fuel .boolean ic (some ⟨s.lastKey + 1, .multipleChoiceAnswer⟩)
            { s with lastKey := s.lastKey + 1 } with ⟨eo₁, s₂⟩
        rw [hins₁] at h₁
        cases eo₁ with
        | none => exact insertsFresh_trans (insertsFresh_bump s) h₁
        | some be =>
          simp only
          have h₂ := ih .text an (some ⟨s.lastKey + 1, .multipleChoiceAnswer⟩) s₂
          rcases hins₂ : insertNode fuel .text an
              (some ⟨s.lastKey + 1, .multipleChoiceAnswer⟩) s₂ with ⟨eo₂, s₃⟩
          rw [hins₂] at h₂
          cases eo₂ with
          | none => exact insertsFresh_trans (insertsFresh_bump s) (insertsFresh_trans h₁ h₂)
          | some ae => exact insertsFresh_set_head _ _ rfl (insertsFresh_trans h₁ h₂)
      | list xs => exact insertsFresh_bump s
      | paragraph c => exact insertsFresh_bump s
      | multipleChoice a b => exact insertsFresh_bump s
      | str c => exact insertsFresh_bump s
      | bool b => exact insertsFresh_bump s
    | text =>
      simp only [EditorState.genKey]
      cases v with
      | str c => exact insertsFresh_set_head _ _ rfl (insertsFresh_refl _)
      | list xs => exact insertsFresh_bump s
      | paragraph c => exact insertsFresh_bump s
      | multipleChoice a b => exact insertsFresh_bump s
      | mcAnswer a b => exact insertsFresh_bump s
      | bool b => exact insertsFresh_bump s
    | boolean =>
      simp only [EditorState.genKey]
      cases v with
      | bool b => exact insertsFresh_set_head _ _ rfl (insertsFresh_refl _)
      | list xs => exact insertsFresh_bump s
      | paragraph c => exact insertsFresh_bump s
      | multipleChoice a b => exact insertsFresh_bump s
      | mcAnswer a b => exact insertsFresh_bump s
      | str c => exact insertsFresh_bump s

theorem insertsFresh_keyBound {s s' : EditorState}
    (hb : keyBound s) (h : InsertsFresh s s') : keyBound s' := by
  obtain ⟨⟨new, he, hbn, _⟩, hl, _, _⟩ := h
  intro p hp
  rw [he] at hp
  rcases List.mem_append.mp hp with hp | hp
  · exact (hbn p hp).2
  · exact le_trans (hb p hp) hl

theorem insertsFresh_nodup {s s' : EditorState}
    (hb : keyBound s) (h : InsertsFresh s s')
    (hn : (s.entries.map (fun p => p.1)).Nodup) :
    (s'.entries.map (fun p => p.1)).Nodup := by
  obtain ⟨⟨new, he, hbn, hnew⟩, hl, _, _⟩ := h
  rw [he, List.map_append]
  refine List.Nodup.append hnew hn ?_
  intro k hk1 hk2
  simp only [List.mem_map] at hk1 hk2
  obtain ⟨p₁, hp₁, hpk₁⟩ := hk1
  obtain ⟨p₂, hp₂, hpk₂⟩ := hk2
  have g₁ := (hbn p₁ hp₁).1
  have g₂ := hb p₂ hp₂
  rw [hpk₁] at g₁
  rw [hpk₂] at g₂
  omega

/-- Claim C9: for every sequence of handler insertions on one writable
store (fresh, as constructed by `WritableState`), no two stored entries
ever share a key — each generated key pairs a strictly increasing sequence
number with the kind tag and is never reused. -/
theorem c9_key_uniqueness (ops : List InsOp) :
    ((runInserts ops initState).entries.map (fun p => p.1)).Nodup := by
  have main : ∀ (ops : List InsOp) (s : EditorState), keyBound s →
      (s.entries.map (fun p => p.1)).Nodup →
      keyBound (runInserts ops s) ∧
        ((runInserts ops s).entries.map (fun p => p.1)).Nodup := by
    intro ops
    induction ops with
    | nil => intro s hb hn; exact ⟨hb, hn⟩
    | cons op rest ih =>
      intro s hb hn
      have hf := insertNode_fresh op.fuel op.type op.value op.parent s
      have hb' := insertsFresh_keyBound hb hf
      have hn' := insertsFresh_nodup hb hf hn
      exact ih _ hb' hn'
  exact (main ops initState (by intro p hp; simp [initState] at hp) (by simp [initState])).2

/-- A nested (depth ≥ 1 after the outer raise) `update` around one
counter-preserving mutation neither notifies nor bumps the counter. -/
theorem inner_update_step (f : EditorState → EditorState) (mm : Mgr)
    (hd : 1 ≤ mm.depth)
    (hsync : mm.lastUpdateCount = mm.store.counter)
    (hc : ∀ st, (f st).counter = st.counter) :
    Mgr.update (Mgr.mutate f) mm = { mm with store := f mm.store } := by
  obtain ⟨st, d, lu, nc⟩ := mm
  simp only at hsync hd
  subst hsync
  unfold Mgr.update Mgr.mutate checkNotify
  simp [hc st, show ¬(d = 0) from by omega]

/-- Claim C10 (amended): three nested `update` calls inside one outer
`update`, each performing counter-preserving store mutations, notify the
listeners exactly once — only when the outermost call unwinds, none during
the inner calls — and advance the update counter by exactly one per
outermost `update` (one per batch), independent of how many store
mutations the batch performed: the counter counts batches just like the
notification count. -/
theorem c10_batch_coalescing (f1 f2 f3 : EditorState → EditorState) (m : Mgr)
    (hd : m.depth = 0) (hsync : m.lastUpdateCount = m.store.counter)
    (hc1 : ∀ st, (f1 st).counter = st.counter)
    (hc2 : ∀ st, (f2 st).counter = st.counter)
    (hc3 : ∀ st, (f3 st).counter = st.counter) :
    (Mgr.update (nestedThree f1 f2 f3) m).notifyCount = m.notifyCount + 1 ∧
    (Mgr.update (nestedThree f1 f2 f3) m).store.counter = m.store.counter + 1 ∧
    (nestedThree f1 f2 f3 { m with depth := m.depth + 1 }).notifyCount = m.notifyCount := by
  have hinner : ∀ mm : Mgr, 1 ≤ mm.depth → mm.lastUpdateCount = mm.store.counter →
      nestedThree f1 f2 f3 mm = { mm with store := f3 (f2 (f1 mm.store)) } := by
    intro mm hdm hsm
    unfold nestedThree
    rw [inner_update_step f1 mm hdm hsm hc1]
    rw [inner_update_step f2 _ (by simp only; omega) (by simp only [hc1]; exact hsm) hc2]
    rw [inner_update_step f3 _ (by simp only; omega)
      (by simp only [hc2, hc1]; exact hsm) hc3]
  obtain ⟨st, d, lu, nc⟩ := m
  simp only at hd hsync
  subst hd
  subst hsync
  have hstep := hinner ⟨st, 0 + 1, st.counter, nc⟩ (by simp) rfl
  simp only at hstep
  refine ⟨?_, ?_, ?_⟩
  · simp only [Mgr.update]
    rw [hstep]
    simp [checkNotify, EditorState.incCounter, hc1, hc2, hc3]
  · simp only [Mgr.update]
    rw [hstep]
    simp [checkNotify, EditorState.incCounter, hc1, hc2, hc3]
  · simp only
    rw [hstep]

/-- Claim C10 counterexample: an outer `update` containing three nested
`update` calls that together perform three store mutations advances the
update counter by exactly 1, not by 3 (= the number of underlying store
mutations): `incCounter` runs once per outermost `update`, so the counter
counts batches exactly like the notification count — the two are not
decoupled as claimed. -/
theorem c10_counterexample :
    (Mgr.update
        (nestedThree (fun st => st.setEntry textK ⟨.text, textK, none, .str []⟩)
          (fun st => st.setEntry paraK ⟨.paragraph, paraK, none, .wrap textK⟩)
          (fun st => st.setEntry rootK ⟨.root, rootK, none, .arr [paraK]⟩))
        ⟨initState, 0, 0, 0⟩).store.counter = 0 + 1 ∧
    (Mgr.update
        (nestedThree (fun st => st.setEntry textK ⟨.text, textK, none, .str []⟩)
          (fun st => st.setEntry paraK ⟨.paragraph, paraK, none, .wrap textK⟩)
          (fun st => st.setEntry rootK ⟨.root, rootK, none, .arr [paraK]⟩))
        ⟨initState, 0, 0, 0⟩).notifyCount = 0 + 1 ∧
    (1 : Nat) ≠ 3 := by
  refine ⟨by decide, by decide, by decide⟩

theorem c10_batch_coalescing_witness :
    (Mgr.update
        (nestedThree (fun st => st.setEntry textK ⟨.text, textK, none, .str ['a']⟩)
          (fun st => st.setEntry textK ⟨.text, textK, none, .str ['b']⟩)
          (fun st => st.setEntry textK ⟨.text, textK, none, .str ['c']⟩))
        ⟨demoStore, 0, 0, 0⟩).notifyCount = 0 + 1 ∧
    (Mgr.update
        (nestedThree (fun st => st.setEntry textK ⟨.text, textK, none, .str ['a']⟩)
          (fun st => st.setEntry textK ⟨.text, textK, none, .str ['b']⟩)
          (fun st => st.setEntry textK ⟨.text, textK, none, .str ['c']⟩))
        ⟨demoStore, 0, 0, 0⟩).store.counter = demoStore.counter + 1 ∧
    (nestedThree (fun st => st.setEntry textK ⟨.text, textK, none, .str ['a']⟩)
        (fun st => st.setEntry textK ⟨.text, textK, none, .str ['b']⟩)
        (fun st => st.setEntry textK ⟨.text, textK, none, .str ['c']⟩)
        { (⟨demoStore, 0, 0, 0⟩ : Mgr) with depth := 0 + 1 }).notifyCount = 0 :=
  c10_batch_coalescing _ _ _ ⟨demoStore, 0, 0, 0⟩ (by decide) (by decide)
    (fun st => rfl) (fun st => rfl) (fun st => rfl)

/-- Claim C4: for a command other than `deleteRange` dispatched while the
cursor is a non-collapsed range, the dispatcher (after the add-element
stage, which never touches the cursor) first recursively dispatches
`deleteRange`; if that recursive dispatch fails, the whole dispatch returns
failure with the recursive dispatch's state, and if the command is
`deleteForward` or `deleteBackward` the dispatch returns success with
exactly the range-deletion's state — the range-based dispatch for the
command itself never runs. -/
theorem c4_range_reduction (fuel : Nat) (cmd : Cmd) (rootKey : Key) (s s₁ : EditorState)
    (cur : Cursor)
    (hcmd : cmd ≠ .deleteRange)
    (hadd : addStage fuel cmd rootKey s = (some (), s₁))
    (hcur : s₁.cursor = some cur)
    (hnc : cur.start ≠ cur.stop) :
    (∀ s₂, dispatchCommand fuel .deleteRange rootKey s₁ = (some false, s₂) →
      dispatchCommand (fuel + 1) cmd rootKey s = (some false, s₂)) ∧
    (∀ s₂, (cmd = .deleteForward ∨ cmd = .deleteBackward) →
      dispatchCommand fuel .deleteRange rootKey s₁ = (some true, s₂) →
      dispatchCommand (fuel + 1) cmd rootKey s = (some true, s₂)) := by
  constructor
  · intro s₂ hdr
    rw [dispatchCommand]
    rw [hadd]
    simp only
    rw [hcur]
    simp only
    rw [if_pos ⟨hcmd, hnc⟩, hdr]
  · intro s₂ hfb hdr
    rw [dispatchCommand]
    rw [hadd]
    simp only
    rw [hcur]
    simp only
    rw [if_pos ⟨hcmd, hnc⟩, hdr]
    simp only
    rw [if_pos hfb]

theorem c4_range_reduction_witness :
    dispatchCommand 7 .deleteBackward rootK c4Store =
      (some true, (dispatchCommand 6 .deleteRange rootK c4Store).2) := by
  have h1 : (dispatchCommand 6 .deleteRange rootK c4Store).1 = some true := by decide
  have hdr : dispatchCommand 6 .deleteRange rootK c4Store =
      (some true, (dispatchCommand 6 .deleteRange rootK c4Store).2) := by
    conv_lhs => rw [← Prod.mk.eta (p := dispatchCommand 6 .deleteRange rootK c4Store)]
    rw [h1]
  exact (c4_range_reduction 6 .deleteBackward rootK c4Store c4Store
    ⟨⟨textK, some 0⟩, ⟨textK, some 1⟩⟩ (by decide) (by decide) (by decide) (by decide)).2
    _ (Or.inr rfl) hdr

theorem textDR_decline (node : Entry) (sIdx : List (Option Idx)) (i : Idx)
    (s : EditorState) (hi : headO sIdx = some i) :
    TextHandler.onDeleteRange node sIdx sIdx s = (some none, s) := by
  unfold TextHandler.onDeleteRange
  rw [hi]
  simp

theorem arrDR_decline (node : Entry) (sIdx : List (Option Idx)) (i : Idx)
    (s : EditorState) (hi : headO sIdx = some i) :
    ArrayHandler.onDeleteRange node sIdx sIdx s = (some none, s) := by
  unfold ArrayHandler.onDeleteRange
  rw [hi]
  simp

/-- With equal narrowed index paths whose head is defined — or a target
kind without a `deleteRange` entry — every handler declines `deleteRange`
without touching the store. -/
theorem runHandler_deleteRange_decline (fuel : Nat) (target : Entry)
    (sIdx : List (Option Idx)) (s : EditorState)
    (h : headO sIdx ≠ none ∨ target.type = .paragraph ∨ target.type = .multipleChoice ∨
      target.type = .multipleChoiceAnswer ∨ target.type = .boolean) :
    runHandler fuel target .deleteRange sIdx sIdx s = (some none, s) := by
  obtain ⟨t, k, par, v⟩ := target
  simp only at h
  rcases h with hh | rfl | rfl | rfl | rfl
  · obtain ⟨i, hi⟩ := Option.ne_none_iff_exists'.mp hh
    cases t with
    | root | content | multipleChoiceAnswers => exact arrDR_decline _ _ _ _ hi
    | text => exact textDR_decline _ _ _ _ hi
    | paragraph | multipleChoice | multipleChoiceAnswer | boolean => rfl
  · rfl
  · rfl
  · rfl
  · rfl

theorem getIndexWithin_safe {parentE : Entry} {ck : Key} {idx : Option Idx}
    (h : getIndexWithin parentE ck = some idx) :
    frameSafe ⟨parentE, idx⟩ := by
  obtain ⟨t, k, par, v⟩ := parentE
  cases t with
  | paragraph => right; left; rfl
  | multipleChoice => right; right; left; rfl
  | multipleChoiceAnswer => right; right; right; left; rfl
  | boolean => right; right; right; right; rfl
  | text => exact absurd h (by simp [getIndexWithin])
  | root | content | multipleChoiceAnswers =>
    cases v with
    | arr cs =>
      simp only [getIndexWithin] at h
      injection h with h2
      left
      rw [← h2]
      simp
    | wrap c => exact absurd h (by simp [getIndexWithin])
    | mc a b => exact absurd h (by simp [getIndexWithin])
    | mca a b => exact absurd h (by simp [getIndexWithin])
    | str c => exact absurd h (by simp [getIndexWithin])
    | bool b => exact absurd h (by simp [getIndexWithin])

theorem climb_safe :
    ∀ (fuel : Nat) (path : List Frame) (s : EditorState) (path' : List Frame),
      climb fuel path s = some path' → (∀ fr ∈ path, frameSafe fr) →
      ∀ fr ∈ path', frameSafe fr := by
  intro fuel
  induction fuel with
  | zero =>
    intro path s path' h
    simp [climb] at h
  | succ fuel ih =>
    intro path s path' h hall
    rw [climb.eq_def] at h
    cases path with
    | nil => simp at h
    | cons top tl =>
      simp only at h
      rcases hpar : top.entry.parent with _ | pk
      · rw [hpar] at h
        injection h with h2
        rw [← h2]
        exact hall
      · rw [hpar] at h
        simp only at h
        rcases hget : s.getEntry pk with _ | parentE
        · rw [hget] at h
          cases h
        · rw [hget] at h
          simp only at h
          rcases hidx : getIndexWithin parentE top.entry.key with _ | idx
          · rw [hidx] at h
            cases h
          · rw [hidx] at h
            refine ih _ s path' h ?_
            intro fr hfr
            rcases List.mem_cons.mp hfr with rfl | hfr
            · exact getIndexWithin_safe hidx
            · exact hall fr hfr

theorem climb_getLast :
    ∀ (fuel : Nat) (path : List Frame) (s : EditorState) (path' : List Frame),
      climb fuel path s = some path' → path'.getLast? = path.getLast? ∧ path' ≠ [] := by
  intro fuel
  induction fuel with
  | zero =>
    intro path s path' h
    simp [climb] at h
  | succ fuel ih =>
    intro path s path' h
    rw [climb.eq_def] at h
    cases path with
    | nil => simp at h
    | cons top tl =>
      simp only at h
      rcases hpar : top.entry.parent with _ | pk
      · rw [hpar] at h
        injection h with h2
        rw [← h2]
        exact ⟨rfl, by simp⟩
      · rw [hpar] at h
        simp only at h
        rcases hget : s.getEntry pk with _ | parentE
        · rw [hget] at h
          cases h
        · rw [hget] at h
          simp only at h
          rcases hidx : getIndexWithin parentE top.entry.key with _ | idx
          · rw [hidx] at h
            cases h
          · rw [hidx] at h
            obtain ⟨hl, hne⟩ := ih _ s path' h
            rw [List.getLast?_cons_cons] at hl
            exact ⟨hl, hne⟩

theorem pathToRoot_spec {fuel : Nat} {p : Point} {s : EditorState} {path : List Frame}
    (h : pathToRoot fuel p s = some path) :
    ∃ e, s.getEntry p.key = some e ∧ path.getLast? = some ⟨e, p.index.map .num⟩ ∧
      path ≠ [] ∧ (p.index ≠ none → ∀ fr ∈ path, frameSafe fr) := by
  unfold pathToRoot at h
  rcases hget : s.getEntry p.key with _ | e
  · rw [hget] at h
    cases h
  · rw [hget] at h
    obtain ⟨hl, hne⟩ := climb_getLast fuel _ s path h
    refine ⟨e, rfl, by simpa using hl, hne, ?_⟩
    intro hidx
    refine climb_safe fuel _ s path h ?_
    intro fr hfr
    rcases List.mem_cons.mp hfr with rfl | hfr
    · left
      simp only
      rcases hpi : p.index with _ | j
      · exact absurd hpi hidx
      · simp
    · simp at hfr

theorem zip_self_takeWhile (path : List Frame) :
    (path.zip path).takeWhile (fun ab => ab.1.entry.key == ab.2.entry.key) =
      path.zip path := by
  induction path with
  | nil => rfl
  | cons f rest ih =>
    rw [List.zip_cons_cons, List.takeWhile_cons]
    simp [ih]

theorem drop_reverse_head {α : Type} (l : List α) (f : α) (rest : List α)
    (h : l.reverse = f :: rest) : l.drop (l.length - 1) = [f] := by
  have hl : l = rest.reverse ++ [f] := by
    have h2 := congrArg List.reverse h
    rw [List.reverse_reverse] at h2
    rw [h2, List.reverse_cons]
  rw [hl]
  have h3 : (rest.reverse ++ [f]).length - 1 = rest.reverse.length := by simp
  rw [h3, List.drop_left]

theorem bubble_deleteRange_declines (fuel : Nat) :
    ∀ (frames : List Frame) (target : Entry) (sIdx : List (Option Idx)) (s : EditorState),
      (headO sIdx ≠ none ∨ target.type = .paragraph ∨ target.type = .multipleChoice ∨
        target.type = .multipleChoiceAnswer ∨ target.type = .boolean) →
      (∀ fr ∈ frames, frameSafe fr) →
      bubble fuel frames target .deleteRange sIdx sIdx s = (some false, s) := by
  intro frames
  induction frames with
  | nil =>
    intro target sIdx s htarget hall
    rw [bubble, runHandler_deleteRange_decline fuel target sIdx s htarget]
    simp
  | cons f rest ih =>
    intro target sIdx s htarget hall
    rw [bubble, runHandler_deleteRange_decline fuel target sIdx s htarget]
    simp only [reduceCtorEq, reduceIte, Option.some.injEq, Bool.false_eq_true, if_false]
    have happ := ih f.entry (f.index :: sIdx) s ?_ ?_
    · simpa using happ
    · have hf := hall f (List.mem_cons_self _ _)
      rcases hf with h1 | h2
      · left
        simpa [headO] using h1
      · right
        exact h2
    · intro fr hfr
      exact hall fr (List.mem_cons_of_mem _ hfr)

/-- Claim C6 counterexample: dispatching `deleteRange` with a *collapsed*
cursor whose point is node-level (`{ key }`, no offset — start and end
equal at every level, both index paths are `[undefined]`) on the text leaf
holding `"ab"` does not fail: the text handler computes `start = 0`,
`end = value.length`, deletes the whole value and reports success. -/
theorem c6_counterexample :
    (dispatchCommand 6 .deleteRange rootK c6Store).1 = some true ∧
    (dispatchCommand 6 .deleteRange rootK c6Store).2.getEntry textK =
      some ⟨.text, textK, some paraK, .str []⟩ := by
  refine ⟨by decide, by decide⟩

/-- Claim C6 (amended): dispatching `deleteRange` with a collapsed cursor
whose point carries an explicit index (e.g. a character offset in a text
leaf) returns failure with the store unchanged: with identical narrowed
index paths at every level, the text and array handlers decline when their
computed start equals their end, the remaining kinds have no `deleteRange`
handler, so the dispatch exhausts the ancestor stack. -/
theorem c6_collapsed_deleteRange_declines (fuel : Nat) (rootKey : Key) (s : EditorState)
    (p : Point) (i : Int) (path : List Frame)
    (hc : s.cursor = some ⟨p, p⟩) (hi : p.index = some i)
    (hp : pathToRoot fuel p s = some path) :
    dispatchCommand (fuel + 1) .deleteRange rootKey s = (some false, s) := by
  obtain ⟨e, hget, hlast, hne, hsafe⟩ := pathToRoot_spec hp
  have hall : ∀ fr ∈ path, frameSafe fr := hsafe (by rw [hi]; simp)
  rcases hrev : path.reverse with _ | ⟨f, rest⟩
  · exact absurd (by simpa using congrArg List.length hrev) (by simpa using hne)
  · have hf : f = ⟨e, p.index.map .num⟩ := by
      have h1 : path.getLast? = some f := by
        rw [List.getLast?_eq_head?_reverse, hrev]
        rfl
      rw [h1] at hlast
      injection hlast
    have hdrop : path.drop (path.length - 1) = [f] := drop_reverse_head path f rest hrev
    rw [dispatchCommand]
    show (match s.cursor with
      | none => (some true, s)
      | some cur =>
        if Cmd.deleteRange ≠ Cmd.deleteRange ∧ cur.start ≠ cur.stop then
          match dispatchCommand fuel .deleteRange rootKey s with
          | (none, s₂) => (none, s₂)
          | (some false, s₂) => (some false, s₂)
          | (some true, s₂) =>
            if Cmd.deleteRange = Cmd.deleteForward ∨ Cmd.deleteRange = Cmd.deleteBackward then
              (some true, s₂)
            else rangeStage fuel Cmd.deleteRange s₂
        else rangeStage fuel Cmd.deleteRange s) = (some false, s)
    rw [hc]
    simp only
    rw [if_neg (by simp)]
    unfold rangeStage
    rw [hc]
    simp only
    rw [hp]
    simp only [zip_self_takeWhile, List.map_fst_zip path path (le_refl _)]
    rw [if_neg (by simp)]
    rw [hdrop, hrev]
    simp only [List.map_cons, List.map_nil]
    have hhead : f.index = some (.num i) := by
      rw [hf]
      simp only
      rw [hi]
      rfl
    rw [hhead]
    refine bubble_deleteRange_declines fuel rest f.entry [some (.num i)] s (by left; simp [headO]) ?_
    intro fr hfr
    refine hall fr ?_
    rw [← List.mem_reverse, hrev]
    exact List.mem_cons_of_mem _ hfr

theorem c6_collapsed_deleteRange_declines_witness :
    dispatchCommand 7 .deleteRange rootK c5Store = (some false, c5Store) :=
  c6_collapsed_deleteRange_declines 6 rootK c5Store ⟨textK, some 1⟩ 1
    [⟨⟨.root, rootK, none, .arr [paraK]⟩, some (.num 0)⟩,
     ⟨⟨.paragraph, paraK, some rootK, .wrap textK⟩, none⟩,
     ⟨⟨.text, textK, some paraK, .str ['a', 'b']⟩, some (.num 1)⟩]
    (by decide) (by decide) (by decide)

theorem ANE_setEntry {s : EditorState} (h : ANE s) (k : Key) (e : Entry)
    (he : nonemptyArr e.value = true) : ANE (s.setEntry k e) := by
  intro p hp
  rcases List.mem_cons.mp hp with rfl | hp
  · exact he
  · exact h p hp

theorem ANE_setCaret {s : EditorState} (h : ANE s) (p : Point) : ANE (s.setCaret p) := h

theorem ANE_bump {s : EditorState} (h : ANE s) (n : Int) :
    ANE { s with lastKey := n } := h

theorem ANE_of_eq {α : Type} {X : α × EditorState} {r : α} {s₂ : EditorState}
    (heq : X = (r, s₂)) (h : ANE X.2) : ANE s₂ := by
  rw [heq] at h
  exact h

theorem ANE_setEntry_str {s : EditorState} (h : ANE s) (k : Key) (t : NodeType)
    (k2 : Key) (par : Option Key) (cs : List Char) :
    ANE (s.setEntry k ⟨t, k2, par, .str cs⟩) := ANE_setEntry h _ _ rfl

theorem ANE_setEntry_wrap {s : EditorState} (h : ANE s) (k : Key) (t : NodeType)
    (k2 : Key) (par : Option Key) (c : Key) :
    ANE (s.setEntry k ⟨t, k2, par, .wrap c⟩) := ANE_setEntry h _ _ rfl

theorem ANE_setEntry_mca {s : EditorState} (h : ANE s) (k : Key) (t : NodeType)
    (k2 : Key) (par : Option Key) (a b : Key) :
    ANE (s.setEntry k ⟨t, k2, par, .mca a b⟩) := ANE_setEntry h _ _ rfl

theorem ANE_setEntry_mc {s : EditorState} (h : ANE s) (k : Key) (t : NodeType)
    (k2 : Key) (par : Option Key) (a b : Key) :
    ANE (s.setEntry k ⟨t, k2, par, .mc a b⟩) := ANE_setEntry h _ _ rfl

theorem ANE_setEntry_bool {s : EditorState} (h : ANE s) (k : Key) (t : NodeType)
    (k2 : Key) (par : Option Key) (b : Bool) :
    ANE (s.setEntry k ⟨t, k2, par, .bool b⟩) := ANE_setEntry h _ _ rfl

theorem ANE_setEntry_cons {s : EditorState} (h : ANE s) (k : Key) (t : NodeType)
    (k2 : Key) (par : Option Key) (c : Key) (cs : List Key) :
    ANE (s.setEntry k ⟨t, k2, par, .arr (c :: cs)⟩) := ANE_setEntry h _ _ rfl

theorem ANE_textSplit (node : Entry) (path : List (Option Idx)) (npk : Option Key)
    (s : EditorState) (h : ANE s) : ANE (TextHandler.split node path npk s).2 := by
  unfold TextHandler.split
  simp only [EditorState.genKey]
  repeat' split
  all_goals first
    | exact h
    | exact ANE_setEntry_str (ANE_bump (ANE_setEntry_str h _ _ _ _ _) _) _ _ _ _ _

theorem ANE_paragraphSplit (node : Entry) (path : List (Option Idx)) (npk : Option Key)
    (s : EditorState) (h : ANE s) : ANE (ParagraphHandler.split node path npk s).2 := by
  unfold ParagraphHandler.split
  simp only [EditorState.genKey]
  repeat' split
  all_goals first
    | exact h
    | exact ANE_of_eq (by assumption) (ANE_textSplit _ _ _ _ (ANE_bump h _))
    | exact ANE_setEntry_wrap
        (ANE_of_eq (by assumption) (ANE_textSplit _ _ _ _ (ANE_bump h _))) _ _ _ _ _

theorem ANE_splitNode (t : NodeType) (node : Entry) (path : List (Option Idx))
    (npk : Option Key) (s : EditorState) (h : ANE s) :
    ANE (splitNode t node path npk s).2 := by
  unfold splitNode
  split
  · exact ANE_textSplit _ _ _ _ h
  · exact ANE_paragraphSplit _ _ _ _ h
  · exact h

theorem ANE_textMerge (e1 e2 : Entry) (s : EditorState) (h : ANE s) :
    ANE (TextHandler.merge e1 e2 s).2 := by
  unfold TextHandler.merge
  repeat' split
  all_goals first
    | exact h
    | exact ANE_setEntry_str h _ _ _ _ _

theorem ANE_paragraphMerge (e1 e2 : Entry) (s : EditorState) (h : ANE s) :
    ANE (ParagraphHandler.merge e1 e2 s).2 := by
  unfold ParagraphHandler.merge
  repeat' split
  all_goals first
    | exact h
    | exact ANE_textMerge _ _ _ h

theorem ANE_mergeNode (t : NodeType) (e1 e2 : Entry) (s : EditorState) (h : ANE s) :
    ANE (mergeNode t e1 e2 s).2 := by
  unfold mergeNode
  split
  · exact ANE_textMerge _ _ _ h
  · exact ANE_paragraphMerge _ _ _ h
  · exact h

theorem ANE_textSelect (e : Entry) (path : List (Option Idx)) (s : EditorState)
    (h : ANE s) : ANE (TextHandler.select e path s).2 := by
  unfold TextHandler.select
  repeat' split
  all_goals first
    | exact h
    | exact ANE_setCaret h _

theorem ANE_selectNode (e : Entry) (path : List (Option Idx)) (s : EditorState)
    (h : ANE s) : ANE (selectNode e path s).2 := by
  unfold selectNode BooleanHandler.select
  repeat' split
  all_goals first
    | exact h
    | exact ANE_setCaret h _
    | exact ANE_textSelect _ _ _ h

theorem ANE_paragraphSelectStart (e : Entry) (s : EditorState) (h : ANE s) :
    ANE (ParagraphHandler.selectStart e s).2 := by
  unfold ParagraphHandler.selectStart
  repeat' split
  all_goals first
    | exact h
    | exact ANE_setCaret h _

theorem ANE_selectStartFamily :
    ∀ fuel : Nat,
      (∀ (t : NodeType) (e : Entry) (s : EditorState), ANE s →
        ANE (selectStartNode fuel t e s).2) ∧
      (∀ (e : Entry) (s : EditorState), ANE s → ANE (arraySelectStart fuel e s).2) := by
  intro fuel
  induction fuel with
  | zero => exact ⟨fun t e s h => h, fun e s h => h⟩
  | succ fuel ih =>
    constructor
    · intro t e s h
      rw [selectStartNode.eq_def]
      simp only
      repeat' split
      all_goals first
        | exact h
        | exact ANE_setCaret h _
        | exact ih.2 _ _ h
    · intro e s h
      rw [arraySelectStart.eq_def]
      simp only
      repeat' split
      all_goals first
        | exact h
        | exact ih.1 _ _ _ h

theorem ANE_selectEndFamily :
    ∀ fuel : Nat,
      (∀ (t : NodeType) (e : Entry) (s : EditorState), ANE s →
        ANE (selectEndNode fuel t e s).2) ∧
      (∀ (e : Entry) (s : EditorState), ANE s → ANE (arraySelectEnd fuel e s).2) := by
  intro fuel
  induction fuel with
  | zero => exact ⟨fun t e s h => h, fun e s h => h⟩
  | succ fuel ih =>
    constructor
    · intro t e s h
      rw [selectEndNode.eq_def]
      simp only
      repeat' split
      all_goals first
        | exact h
        | exact ANE_setCaret h _
        | exact ih.2 _ _ h
    · intro e s h
      rw [arraySelectEnd.eq_def]
      simp only
      repeat' split
      all_goals first
        | exact h
        | exact (ANE_selectStartFamily fuel).1 _ _ _ h

theorem ANE_textCreateEmpty (parent : Option Key) (s : EditorState) (h : ANE s) :
    ANE (TextHandler.createEmpty parent s).2 := by
  unfold TextHandler.createEmpty
  simp only [EditorState.genKey]
  exact ANE_setEntry_str (ANE_bump h _) _ _ _ _ _

theorem ANE_booleanCreateEmpty (parent : Option Key) (s : EditorState) (h : ANE s) :
    ANE (BooleanHandler.createEmpty parent s).2 := by
  unfold BooleanHandler.createEmpty
  simp only [EditorState.genKey]
  exact ANE_setEntry_bool (ANE_bump h _) _ _ _ _ _

theorem ANE_paragraphCreateEmpty (parent : Option Key) (s : EditorState) (h : ANE s) :
    ANE (ParagraphHandler.createEmpty parent s).2 := by
  unfold ParagraphHandler.createEmpty
  simp only [EditorState.genKey]
  exact ANE_setEntry_wrap (ANE_textCreateEmpty _ _ (ANE_bump h _)) _ _ _ _ _

theorem ANE_mcaCreateEmpty (parent : Option Key) (s : EditorState) (h : ANE s) :
    ANE (MCAnswerHandler.createEmpty parent s).2 := by
  unfold MCAnswerHandler.createEmpty
  simp only [EditorState.genKey]
  exact ANE_setEntry_mca
    (ANE_textCreateEmpty _ _ (ANE_booleanCreateEmpty _ _ (ANE_bump h _))) _ _ _ _ _ _


theorem ANE_childCreateEmpty (t : NodeType) (parent : Option Key) (s : EditorState)
    (h : ANE s) : ANE (childCreateEmpty t parent s).2 := by
  unfold childCreateEmpty
  repeat' split
  all_goals first
    | exact h
    | exact ANE_of_eq (by assumption) (ANE_paragraphCreateEmpty _ _ h)
    | exact ANE_of_eq (by assumption) (ANE_mcaCreateEmpty _ _ h)

theorem ANE_mergeStep (left right : Option Entry) (s : EditorState) (h : ANE s) :
    ANE (mergeStep left right s).2 := by
  unfold mergeStep
  repeat' split
  all_goals first
    | exact h
    | exact ANE_mergeNode _ _ _ _ h

theorem ANE_mergeIfSame (a b : Entry) (s : EditorState) (h : ANE s) :
    ANE (mergeIfSame a b s).2 := by
  unfold mergeIfSame
  split
  · exact ANE_mergeNode _ _ _ _ h
  · exact h

theorem nonemptyArr_of_length {cs : List Key} (h : 0 < cs.length) :
    nonemptyArr (.arr cs) = true := by
  cases cs with
  | nil => simp at h
  | cons a rest => rfl

theorem insertFold_none
    (rec : NodeType → JSON → Option Key → EditorState → Option Entry × EditorState)
    (key : Key) :
    ∀ (xs : List JSON) (s : EditorState),
      xs.foldl (insertStep rec key) ((none : Option (List Key)), s) = (none, s) := by
  intro xs
  induction xs with
  | nil => intro s; rfl
  | cons x rest ih =>
    intro s
    rw [List.foldl_cons]
    exact ih s

theorem insertStep_ANE
    (rec : NodeType → JSON → Option Key → EditorState → Option Entry × EditorState)
    (key : Key)
    (hrec : ∀ t v p s, NoEmptyLists v → ANE s → ANE (rec t v p s).2)
    (acc : Option (List Key) × EditorState) (x : JSON)
    (hx : NoEmptyLists x) (h : ANE acc.2) : ANE (insertStep rec key acc x).2 := by
  obtain ⟨ko, sa⟩ := acc
  rw [insertStep.eq_def]
  cases ko with
  | none => exact h
  | some ks =>
    simp only
    cases jsonTag x with
    | none => exact h
    | some tg =>
      simp only
      have h2 := hrec tg x (some key) sa hx h
      rcases hins : rec tg x (some key) sa with ⟨eo, sb⟩
      rw [hins] at h2
      cases eo <;> exact h2

theorem insertFold_ANE
    (rec : NodeType → JSON → Option Key → EditorState → Option Entry × EditorState)
    (key : Key)
    (hrec : ∀ t v p s, NoEmptyLists v → ANE s → ANE (rec t v p s).2) :
    ∀ (xs : List JSON) (acc : Option (List Key) × EditorState),
      (∀ x ∈ xs, NoEmptyLists x) → ANE acc.2 →
      ANE ((xs.foldl (insertStep rec key) acc).2) ∧
      (∀ ks0 cks, acc.1 = some ks0 → (xs.foldl (insertStep rec key) acc).1 = some cks →
        ks0.length + xs.length = cks.length) := by
  intro xs
  induction xs with
  | nil =>
    intro acc hall h
    refine ⟨h, ?_⟩
    intro ks0 cks h1 h2
    simp only [List.foldl_nil] at h2
    rw [h1] at h2
    injection h2 with h3
    rw [h3]
    simp
  | cons x rest ih =>
    intro acc hall h
    rw [List.foldl_cons]
    have hx := hall x (List.mem_cons_self _ _)
    have hstep := insertStep_ANE rec key hrec acc x hx h
    have hih := ih (insertStep rec key acc x)
      (fun y hy => hall y (List.mem_cons_of_mem _ hy)) hstep
    refine ⟨hih.1, ?_⟩
    intro ks0 cks h1 h2
    obtain ⟨ko, sa⟩ := acc
    simp only at h1
    subst h1
    rw [insertStep.eq_def] at h2 hih
    simp only at h2 hih
    cases htag : jsonTag x with
    | none =>
      rw [htag] at h2
      simp only at h2
      rw [insertFold_none] at h2
      cases h2
    | some tg =>
      rw [htag] at h2 hih
      simp only at h2 hih
      rcases hins : rec tg x (some key) sa with ⟨eo, sb⟩
      rw [hins] at h2 hih
      cases eo with
      | none =>
        simp only at h2
        rw [insertFold_none] at h2
        cases h2
      | some e =>
        simp only at h2 hih
        have h4 := hih.2 (ks0 ++ [e.key]) cks rfl h2
        simp only [List.length_append, List.length_cons, List.length_nil] at h4 ⊢
        omega

/-- Handler insertion preserves array non-emptiness for external values
with no empty array level: every array entry an insertion writes gets one
key per external child. -/
theorem insertNode_ANE :
    ∀ (fuel : Nat) (t : NodeType) (v : JSON) (parent : Option Key) (s : EditorState),
      NoEmptyLists v → ANE s → ANE (insertNode fuel t v parent s).2 := by
  intro fuel
  induction fuel with
  | zero => intro t v parent s _ h; exact h
  | succ fuel ih =>
    intro t v parent s hv h
    rw [insertNode.eq_def]
    simp only
    have harr : ∀ t0, ∀ xs : List JSON, xs ≠ [] → (∀ x ∈ xs, NoEmptyLists x) →
        ANE ((match xs.foldl
            (insertStep (fun t2 v2 p2 s2 => insertNode fuel t2 v2 p2 s2)
              (⟨s.lastKey + 1, t0⟩ : Key))
            ((some [], { s with lastKey := s.lastKey + 1 }) :
              Option (List Key) × EditorState) with
          | (none, s₂) => ((none : Option Entry), s₂)
          | (some cks, s₂) =>
            (some ⟨t0, ⟨s.lastKey + 1, t0⟩, parent, .arr cks⟩,
              s₂.setEntry ⟨s.lastKey + 1, t0⟩ ⟨t0, ⟨s.lastKey + 1, t0⟩, parent, .arr cks⟩)).2) := by
      intro t0 xs hne hall
      have hfold := insertFold_ANE (fun t2 v2 p2 s2 => insertNode fuel t2 v2 p2 s2)
        (⟨s.lastKey + 1, t0⟩ : Key) (fun a b c d hb hd => ih a b c d hb hd) xs
        ((some [], { s with lastKey := s.lastKey + 1 })) hall (ANE_bump h _)
      rcases hres : xs.foldl
          (insertStep (fun t2 v2 p2 s2 => insertNode fuel t2 v2 p2 s2)
            (⟨s.lastKey + 1, t0⟩ : Key))
          ((some [], { s with lastKey := s.lastKey + 1 }) :
            Option (List Key) × EditorState) with ⟨cko, s₂⟩
      rw [hres] at hfold
      simp only at hfold
      cases cko with
      | none => exact hfold.1
      | some cks =>
        refine ANE_setEntry hfold.1 _ _ (nonemptyArr_of_length ?_)
        have h4 := hfold.2 [] cks rfl rfl
        simp only [List.length_nil] at h4
        cases xs with
        | nil => exact absurd rfl hne
        | cons y ys =>
          simp only [List.length_cons] at h4
          omega
    cases t with
    | root | content | multipleChoiceAnswers =>
      simp only [EditorState.genKey]
      cases hv with
      | list hne hall => exact harr _ _ hne hall
      | paragraph hc => exact ANE_bump h _
      | multipleChoice ha hb => exact ANE_bump h _
      | mcAnswer ha hb => exact ANE_bump h _
      | str => exact ANE_bump h _
      | bool => exact ANE_bump h _
    | paragraph =>
      simp only [EditorState.genKey]
      cases hv with
      | paragraph hc =>
        simp only
        have h2 := ih .text _ (some ⟨s.lastKey + 1, .paragraph⟩)
          { s with lastKey := s.lastKey + 1 } hc (ANE_bump h _)
        rcases hins : insertNode fuel .text _ (some ⟨s.lastKey + 1, .paragraph⟩)
            { s with lastKey := s.lastKey + 1 } with ⟨eo, s₂⟩
        rw [hins] at h2
        cases eo with
        | none => exact h2
        | some ce => exact ANE_setEntry_wrap h2 _ _ _ _ _
      | list hne hall => exact ANE_bump h _
      | multipleChoice ha hb => exact ANE_bump h _
      | mcAnswer ha hb => exact ANE_bump h _
      | str => exact ANE_bump h _
      | bool => exact ANE_bump h _
    | multipleChoice =>
      simp only [EditorState.genKey]
      cases hv with
      | multipleChoice ha hb =>
        simp only
        have h2 := ih .content _ (some ⟨s.lastKey + 1, .multipleChoice⟩)
          { s with lastKey := s.lastKey + 1 } ha (ANE_bump h _)
        rcases hins : insertNode fuel .content _ (some ⟨s.lastKey + 1, .multipleChoice⟩)
            { s with lastKey := s.lastKey + 1 } with ⟨eo, s₂⟩
        rw [hins] at h2
        cases eo with
        | none => exact h2
        | some te =>
          simp only
          have h3 := ih .multipleChoiceAnswers _ (some ⟨s.lastKey + 1, .multipleChoice⟩)
            s₂ hb h2
          rcases hins₂ : insertNode fuel .multipleChoiceAnswers _
              (some ⟨s.lastKey + 1, .multipleChoice⟩) s₂ with ⟨eo₂, s₃⟩
          rw [hins₂] at h3
          cases eo₂ with
          | none => exact h3
          | some ae => exact ANE_setEntry_mc h3 _ _ _ _ _ _
      | list hne hall => exact ANE_bump h _
      | paragraph hc => exact ANE_bump h _
      | mcAnswer ha hb => exact ANE_bump h _
      | str => exact ANE_bump h _
      | bool => exact ANE_bump h _
    | multipleChoiceAnswer =>
      simp only [EditorState.genKey]
      cases hv with
      | mcAnswer ha hb =>
        simp only
        have h2 := ih .boolean _ (some ⟨s.lastKey + 1, .multipleChoiceAnswer⟩)
          { s with lastKey := s.lastKey + 1 } ha (ANE_bump h _)
        rcases hins : insertNode fuel .boolean _ (some ⟨s.lastKey + 1, .multipleChoiceAnswer⟩)
            { s with lastKey := s.lastKey + 1 } with ⟨eo, s₂⟩
        rw [hins] at h2
        cases eo with
        | none => exact h2
        | some be =>
          simp only
          have h3 := ih .text _ (some ⟨s.lastKey + 1, .multipleChoiceAnswer⟩) s₂ hb h2
          rcases hins₂ : insertNode fuel .text _
              (some ⟨s.lastKey + 1, .multipleChoiceAnswer⟩) s₂ with ⟨eo₂, s₃⟩
          rw [hins₂] at h3
          cases eo₂ with
          | none => exact h3
          | some ae => exact ANE_setEntry_mca h3 _ _ _ _ _ _
      | list hne hall => exact ANE_bump h _
      | paragraph hc => exact ANE_bump h _
      | multipleChoice ha hb => exact ANE_bump h _
      | str => exact ANE_bump h _
      | bool => exact ANE_bump h _
    | text =>
      simp only [EditorState.genKey]
      cases hv with
      | str => exact ANE_setEntry_str (ANE_bump h _) _ _ _ _ _
      | list hne hall => exact ANE_bump h _
      | paragraph hc => exact ANE_bump h _
      | multipleChoice ha hb => exact ANE_bump h _
      | mcAnswer ha hb => exact ANE_bump h _
      | bool => exact ANE_bump h _
    | boolean =>
      simp only [EditorState.genKey]
      cases hv with
      | bool => exact ANE_setEntry_bool (ANE_bump h _) _ _ _ _ _
      | list hne hall => exact ANE_bump h _
      | paragraph hc => exact ANE_bump h _
      | multipleChoice ha hb => exact ANE_bump h _
      | mcAnswer ha hb => exact ANE_bump h _
      | str => exact ANE_bump h _

theorem ANE_getEntry {s : EditorState} (h : ANE s) {k : Key} {e : Entry}
    (he : s.getEntry k = some e) : nonemptyArr e.value = true :=
  h (k, e) (lookupE_some_mem he)

theorem jsFilterOutIdx_length_pos {α : Type} {l : List α} {j : Int}
    (hl : l ≠ []) (hj : j ≠ 0) : 0 < (jsFilterOutIdx l j).length := by
  cases l with
  | nil => exact absurd rfl hl
  | cons a rest =>
    rw [jsFilterOutIdx]
    rw [if_neg (fun hh => hj hh.symm)]
    simp

theorem nonemptyArr_arr_ne_nil {cs : List Key} (h : nonemptyArr (.arr cs) = true) :
    cs ≠ [] := by
  cases cs with
  | nil => simp [nonemptyArr, List.isEmpty] at h
  | cons a rest => exact List.cons_ne_nil a rest

theorem jsGet_num_nonneg {α : Type} {l : List α} {i : Int} {a : α}
    (h : jsGet l (.num i) = some a) : 0 ≤ i := by
  unfold jsGet at h
  simp only at h
  by_cases hi : i < 0
  · rw [if_pos hi] at h
    cases h
  · omega

theorem ANE_newChildOf (t : NodeType) (pk : Key) (so : Option (Entry × Entry))
    (s : EditorState) (h : ANE s) : ANE (newChildOf t pk so s).2 := by
  unfold newChildOf
  split
  · exact h
  · exact ANE_childCreateEmpty _ _ _ h

theorem ANE_textInsertText (node : Entry) (sIdx eIdx : List (Option Idx)) (txt : List Char)
    (s : EditorState) (h : ANE s) : ANE (TextHandler.onInsertText node sIdx eIdx txt s).2 := by
  unfold TextHandler.onInsertText
  dsimp only
  repeat' split
  all_goals first
    | exact h
    | exact ANE_setCaret (ANE_setEntry_str h _ _ _ _ _) _

theorem ANE_textDeleteRange (node : Entry) (sIdx eIdx : List (Option Idx))
    (s : EditorState) (h : ANE s) : ANE (TextHandler.onDeleteRange node sIdx eIdx s).2 := by
  unfold TextHandler.onDeleteRange
  dsimp only
  repeat' split
  all_goals first
    | exact h
    | exact ANE_setCaret (ANE_setEntry_str h _ _ _ _ _) _

theorem ANE_textDeleteForward (node : Entry) (sIdx eIdx : List (Option Idx))
    (s : EditorState) (h : ANE s) : ANE (TextHandler.onDeleteForward node sIdx eIdx s).2 := by
  unfold TextHandler.onDeleteForward
  dsimp only
  repeat' split
  all_goals first
    | exact h
    | exact ANE_setCaret (ANE_setEntry_str h _ _ _ _ _) _

theorem ANE_textDeleteBackward (node : Entry) (sIdx eIdx : List (Option Idx))
    (s : EditorState) (h : ANE s) : ANE (TextHandler.onDeleteBackward node sIdx eIdx s).2 := by
  unfold TextHandler.onDeleteBackward
  dsimp only
  repeat' split
  all_goals first
    | exact h
    | exact ANE_setCaret (ANE_setEntry_str h _ _ _ _ _) _

theorem ANE_arrDeleteRange (node : Entry) (sIdx eIdx : List (Option Idx))
    (s : EditorState) (h : ANE s) : ANE (ArrayHandler.onDeleteRange node sIdx eIdx s).2 := by
  unfold ArrayHandler.onDeleteRange
  dsimp only
  repeat' split
  all_goals first
    | exact h
    | exact ANE_of_eq (by assumption) (ANE_splitNode _ _ _ _ _ h)
    | exact ANE_of_eq (by assumption) (ANE_splitNode _ _ _ _ _
        (ANE_of_eq (by assumption) (ANE_splitNode _ _ _ _ _ h)))
    | exact ANE_of_eq (by assumption) (ANE_mergeStep _ _ _
        (ANE_of_eq (by assumption) (ANE_splitNode _ _ _ _ _
          (ANE_of_eq (by assumption) (ANE_splitNode _ _ _ _ _ h)))))
    | exact ANE_of_eq (by assumption) (ANE_selectNode _ _ _
        (ANE_of_eq (by assumption) (ANE_mergeStep _ _ _
          (ANE_of_eq (by assumption) (ANE_splitNode _ _ _ _ _
            (ANE_of_eq (by assumption) (ANE_splitNode _ _ _ _ _ h)))))))
    | exact ANE_setEntry
        (ANE_of_eq (by assumption) (ANE_selectNode _ _ _
          (ANE_of_eq (by assumption) (ANE_mergeStep _ _ _
            (ANE_of_eq (by assumption) (ANE_splitNode _ _ _ _ _
              (ANE_of_eq (by assumption) (ANE_splitNode _ _ _ _ _ h))))))))
        _ _ (nonemptyArr_of_length (by assumption))
    | exact ANE_of_eq (by assumption) (ANE_paragraphSelectStart _ _
        (ANE_paragraphCreateEmpty _ _
          (ANE_of_eq (by assumption) (ANE_mergeStep _ _ _
            (ANE_of_eq (by assumption) (ANE_splitNode _ _ _ _ _
              (ANE_of_eq (by assumption) (ANE_splitNode _ _ _ _ _ h))))))))
    | exact ANE_setEntry_cons
        (ANE_of_eq (by assumption) (ANE_paragraphSelectStart _ _
          (ANE_paragraphCreateEmpty _ _
            (ANE_of_eq (by assumption) (ANE_mergeStep _ _ _
              (ANE_of_eq (by assumption) (ANE_splitNode _ _ _ _ _
                (ANE_of_eq (by assumption) (ANE_splitNode _ _ _ _ _ h)))))))))
        _ _ _ _ _ _

theorem ANE_arrInsertNewElement (fuel : Nat) (node : Entry) (sIdx eIdx : List (Option Idx))
    (s : EditorState) (h : ANE s) :
    ANE (ArrayHandler.onInsertNewElement fuel node sIdx eIdx s).2 := by
  unfold ArrayHandler.onInsertNewElement
  dsimp only
  repeat' split
  all_goals first
    | exact h
    | exact ANE_of_eq (by assumption) (ANE_splitNode _ _ _ _ _ h)
    | exact ANE_of_eq (by assumption) (ANE_newChildOf _ _ _ _
        (ANE_of_eq (by assumption) (ANE_splitNode _ _ _ _ _ h)))
    | exact ANE_of_eq (by assumption) ((ANE_selectStartFamily fuel).1 _ _ _
        (ANE_of_eq (by assumption) (ANE_newChildOf _ _ _ _
          (ANE_of_eq (by assumption) (ANE_splitNode _ _ _ _ _ h)))))
    | exact ANE_setEntry
        (ANE_of_eq (by assumption) ((ANE_selectStartFamily fuel).1 _ _ _
          (ANE_of_eq (by assumption) (ANE_newChildOf _ _ _ _
            (ANE_of_eq (by assumption) (ANE_splitNode _ _ _ _ _ h))))))
        _ _ (nonemptyArr_of_length
          (by simp only [List.length_append, List.length_cons, List.length_nil]; omega))

theorem ANE_arrDeleteForward (node : Entry) (sIdx eIdx : List (Option Idx))
    (s : EditorState) (h : ANE s) : ANE (ArrayHandler.onDeleteForward node sIdx eIdx s).2 := by
  unfold ArrayHandler.onDeleteForward
  dsimp only
  repeat' split
  all_goals first
    | exact h
    | exact ANE_of_eq (by assumption) (ANE_mergeIfSame _ _ _ h)
    | (refine ANE_setEntry (ANE_of_eq (by assumption) (ANE_mergeIfSame _ _ _ h)) _ _
         (nonemptyArr_of_length (jsFilterOutIdx_length_pos ?hn ?hj))
       case hn =>
         rename _ = Value.arr _ => hval
         rename EditorState.getEntry _ _ = some _ => hcur
         rename mergeIfSame _ _ _ = _ => hm
         have h2 := ANE_getEntry (ANE_of_eq hm (ANE_mergeIfSame _ _ _ h)) hcur
         rw [hval] at h2
         exact nonemptyArr_arr_ne_nil h2
       case hj =>
         rename jsGet _ (Idx.num _) = some _ => hgetB
         revert hgetB
         rename jsGet _ (Idx.num _) = some _ => hgetA
         intros
         have h3 := jsGet_num_nonneg hgetA
         omega)

theorem ANE_arrDeleteBackward (fuel : Nat) (node : Entry) (sIdx eIdx : List (Option Idx))
    (s : EditorState) (h : ANE s) :
    ANE (ArrayHandler.onDeleteBackward fuel node sIdx eIdx s).2 := by
  unfold ArrayHandler.onDeleteBackward
  dsimp only
  repeat' split
  all_goals first
    | exact h
    | exact ANE_of_eq (by assumption) ((ANE_selectEndFamily fuel).1 _ _ _ h)
    | exact ANE_of_eq (by assumption) (ANE_mergeIfSame _ _ _
        (ANE_of_eq (by assumption) ((ANE_selectEndFamily fuel).1 _ _ _ h)))
    | (refine ANE_setEntry
         (ANE_of_eq (by assumption) (ANE_mergeIfSame _ _ _
           (ANE_of_eq (by assumption) ((ANE_selectEndFamily fuel).1 _ _ _ h)))) _ _
         (nonemptyArr_of_length (jsFilterOutIdx_length_pos ?hn ?hj))
       case hn =>
         rename _ = Value.arr _ => hval
         rename EditorState.getEntry _ _ = some _ => hcur
         rename mergeIfSame _ _ _ = _ => hm
         rename selectEndNode _ _ _ _ = _ => hsel
         have h2 := ANE_getEntry
           (ANE_of_eq hm (ANE_mergeIfSame _ _ _
             (ANE_of_eq hsel ((ANE_selectEndFamily fuel).1 _ _ _ h)))) hcur
         rw [hval] at h2
         exact nonemptyArr_arr_ne_nil h2
       case hj =>
         omega)

theorem ANE_runHandler (fuel : Nat) (target : Entry) (cmd : Cmd) (sIdx eIdx : List (Option Idx))
    (s : EditorState) (h : ANE s) : ANE (runHandler fuel target cmd sIdx eIdx s).2 := by
  unfold runHandler
  repeat' split
  all_goals first
    | exact h
    | exact ANE_textInsertText _ _ _ _ _ h
    | exact ANE_textDeleteRange _ _ _ _ h
    | exact ANE_textDeleteForward _ _ _ _ h
    | exact ANE_textDeleteBackward _ _ _ _ h
    | exact ANE_arrDeleteRange _ _ _ _ h
    | exact ANE_arrInsertNewElement fuel _ _ _ _ h
    | exact ANE_arrDeleteForward _ _ _ _ h
    | exact ANE_arrDeleteBackward fuel _ _ _ _ h

theorem ANE_bubble (fuel : Nat) : ∀ (frames : List Frame) (target : Entry) (cmd : Cmd)
    (sIdx eIdx : List (Option Idx)) (s : EditorState), ANE s →
    ANE (bubble fuel frames target cmd sIdx eIdx s).2 := by
  intro frames
  induction frames with
  | nil =>
    intro target cmd sIdx eIdx s h
    have hr := ANE_runHandler fuel target cmd sIdx eIdx s h
    rw [bubble.eq_def]
    rcases hres : runHandler fuel target cmd sIdx eIdx s with ⟨ro, s'⟩
    rw [hres] at hr
    cases ro with
    | none => exact hr
    | some res =>
      dsimp only
      split
      · exact hr
      · exact hr
  | cons f rest ih =>
    intro target cmd sIdx eIdx s h
    have hr := ANE_runHandler fuel target cmd sIdx eIdx s h
    rw [bubble.eq_def]
    rcases hres : runHandler fuel target cmd sIdx eIdx s with ⟨ro, s'⟩
    rw [hres] at hr
    cases ro with
    | none => exact hr
    | some res =>
      dsimp only
      split
      · exact hr
      · exact ih _ _ _ _ _ hr

theorem noEmptyLists_paragraphSample : NoEmptyLists paragraphSample :=
  .paragraph .str

theorem noEmptyLists_mcSample : NoEmptyLists mcSample := by
  unfold mcSample
  refine .multipleChoice (.list (by simp) ?_) (.list (by simp) ?_)
  · intro x hx
    simp only [List.mem_singleton] at hx
    subst hx
    exact .paragraph .str
  · intro x hx
    simp only [List.mem_cons, List.mem_singleton, List.not_mem_nil, or_false] at hx
    rcases hx with rfl | rfl | rfl
    · exact .mcAnswer .bool .str
    · exact .mcAnswer .bool .str
    · exact .mcAnswer .bool .str

theorem ANE_addElem (fuel : Nat) (t : NodeType) (v : JSON) (rootKey : Key) (s : EditorState)
    (hv : NoEmptyLists v) (h : ANE s) : ANE (addElem fuel t v rootKey s).2 := by
  unfold addElem
  repeat' split
  all_goals first
    | exact ANE_of_eq (by assumption) (insertNode_ANE fuel _ _ _ _ hv h)
    | exact ANE_setEntry (ANE_of_eq (by assumption) (insertNode_ANE fuel _ _ _ _ hv h)) _ _
        (nonemptyArr_of_length
          (by simp only [List.length_append, List.length_cons, List.length_nil]; omega))

theorem ANE_addStage (fuel : Nat) (cmd : Cmd) (rootKey : Key) (s : EditorState) (h : ANE s) :
    ANE (addStage fuel cmd rootKey s).2 := by
  unfold addStage
  split
  · exact ANE_addElem fuel _ _ _ _ noEmptyLists_paragraphSample h
  · exact ANE_addElem fuel _ _ _ _ noEmptyLists_mcSample h
  · exact h

theorem ANE_rangeStage (fuel : Nat) (cmd : Cmd) (s : EditorState) (h : ANE s) :
    ANE (rangeStage fuel cmd s).2 := by
  unfold rangeStage
  dsimp only
  repeat' split
  all_goals first
    | exact h
    | exact ANE_bubble fuel _ _ _ _ _ _ h

theorem ANE_dispatchCommand : ∀ (fuel : Nat) (cmd : Cmd) (rootKey : Key) (s : EditorState),
    ANE s → ANE (dispatchCommand fuel cmd rootKey s).2 := by
  intro fuel
  induction fuel with
  | zero => intro cmd rootKey s h; exact h
  | succ fuel ih =>
    intro cmd rootKey s h
    rw [dispatchCommand.eq_def]
    simp only
    repeat' split
    all_goals first
      | exact ANE_of_eq (by assumption) (ANE_addStage fuel _ _ _ h)
      | exact ANE_rangeStage fuel _ _ (ANE_of_eq (by assumption) (ANE_addStage fuel _ _ _ h))
      | exact ANE_of_eq (by assumption) (ih _ _ _
          (ANE_of_eq (by assumption) (ANE_addStage fuel _ _ _ h)))
      | exact ANE_rangeStage fuel _ _ (ANE_of_eq (by assumption) (ih _ _ _
          (ANE_of_eq (by assumption) (ANE_addStage fuel _ _ _ h))))

theorem ANE_runCmds (fuel : Nat) (rootKey : Key) : ∀ (cmds : List Cmd) (s : EditorState),
    ANE s → ANE (runCmds fuel cmds rootKey s) := by
  intro cmds
  induction cmds with
  | nil => intro s h; exact h
  | cons c rest ih =>
    intro s h
    unfold runCmds
    rw [List.foldl_cons]
    exact ih _ (ANE_dispatchCommand fuel c rootKey s h)

/-- Claim C3: after any sequence of dispatched commands starting from a
store whose array-of-children entries are all non-empty, every reachable
array-of-children entry still holds at least one child key: `deleteRange`
back-fills an emptied array with one fresh empty paragraph, and every other
array write splices into or filters a stored (hence non-empty) child list
at a non-zero position. -/
theorem c3_array_nonemptiness (fuel : Nat) (cmds : List Cmd) (rootKey : Key)
    (s₀ : EditorState) (h : ANE s₀) :
    ∀ (k : Key) (e : Entry) (cs : List Key),
      (runCmds fuel cmds rootKey s₀).getEntry k = some e → e.value = .arr cs →
      1 ≤ cs.length := by
  intro k e cs hget hval
  have h2 := ANE_getEntry (ANE_runCmds fuel rootKey cmds s₀ h) hget
  rw [hval] at h2
  have h3 := nonemptyArr_arr_ne_nil h2
  cases cs with
  | nil => exact absurd rfl h3
  | cons a r => simp

/-- The invariant holds concretely: the demo store satisfies it, and after
an `insertText` and a `deleteBackward` the root entry still lists one
paragraph. -/
theorem c3_array_nonemptiness_witness :
    ANE c5Store ∧ 1 ≤ ([paraK] : List Key).length :=
  ⟨by decide,
    c3_array_nonemptiness 8 [.insertText ['x'], .deleteBackward] rootK c5Store
      (by decide) rootK ⟨.root, rootK, none, .arr [paraK]⟩ [paraK] (by rfl) rfl⟩

theorem lookupE_none_of_ne (l : List (Key × Entry)) (k : Key)
    (h : ∀ p ∈ l, p.1 ≠ k) : lookupE l k = none := by
  induction l with
  | nil => rfl
  | cons p rest ih =>
    obtain ⟨a, b⟩ := p
    rw [lookupE]
    rw [if_neg (h (a, b) (List.mem_cons_self _ _))]
    exact ih (fun q hq => h q (List.mem_cons_of_mem _ hq))

theorem lookupE_append_of_ne (new old : List (Key × Entry)) (k : Key)
    (h : ∀ p ∈ new, p.1 ≠ k) : lookupE (new ++ old) k = lookupE old k := by
  induction new with
  | nil => rfl
  | cons p rest ih =>
    obtain ⟨a, b⟩ := p
    rw [List.cons_append, lookupE]
    rw [if_neg (h (a, b) (List.mem_cons_self _ _))]
    exact ih (fun q hq => h q (List.mem_cons_of_mem _ hq))

theorem getEntry_freshExt {s₁ s₂ : EditorState} (hf : FreshExt s₁ s₂) {k : Key} {e : Entry}
    (h : s₁.getEntry k = some e) : s₂.getEntry k = some e := by
  obtain ⟨new, he, hne⟩ := hf
  have hk : (k, e) ∈ s₁.entries := lookupE_some_mem h
  unfold EditorState.getEntry at h ⊢
  rw [he, lookupE_append_of_ne]
  · exact h
  · intro p hp
    exact hne p hp (k, e) hk

theorem freshExt_of_insertsFresh {s₁ s₂ : EditorState}
    (h : InsertsFresh s₁ s₂) (hb : keyBound s₁) : FreshExt s₁ s₂ := by
  obtain ⟨⟨new, he, hbn, _⟩, _, _, _⟩ := h
  refine ⟨new, he, ?_⟩
  intro p hp q hq
  have h1 := (hbn p hp).1
  have h2 := hb q hq
  intro hpq
  rw [hpq] at h1
  omega

theorem freshExt_setEntry {s : EditorState} {k : Key} (e : Entry)
    (hk : ∀ q ∈ s.entries, q.1 ≠ k) : FreshExt s (s.setEntry k e) := by
  refine ⟨[(k, e)], rfl, ?_⟩
  intro p hp q hq
  simp only [List.mem_singleton] at hp
  rw [hp]
  exact fun hh => (hk q hq) hh.symm

/-- After building a node's value from the reserved key `lastKey + 1`, the
reserved key itself is still absent from the store. -/
theorem fresh_key_not_in {s s₂ : EditorState} (hb : keyBound s)
    (hf : InsertsFresh { s with lastKey := s.lastKey + 1 } s₂) (k : Key)
    (hk : k.seq = s.lastKey + 1) : ∀ q ∈ s₂.entries, q.1 ≠ k := by
  obtain ⟨⟨new, he, hbn, _⟩, _, _, _⟩ := hf
  intro q hq
  rw [he] at hq
  rcases List.mem_append.mp hq with hq | hq
  · have h1 := (hbn q hq).1
    simp only at h1
    intro hh
    rw [hh, hk] at h1
    omega
  · have h1 := hb q hq
    intro hh
    rw [hh, hk] at h1
    omega

theorem getEntry_set_self (s : EditorState) (k : Key) (e : Entry) :
    (s.setEntry k e).getEntry k = some e := by
  rw [lookupE_set, if_pos rfl]

theorem readPrim_freshExt {s₁ s₂ : EditorState} (hf : FreshExt s₁ s₂) {k : Key} {j : JSON}
    (h : readPrim k s₁ = some j) : readPrim k s₂ = some j := by
  unfold readPrim at h ⊢
  rcases hg : s₁.getEntry k with _ | e
  · rw [hg] at h
    cases h
  · rw [hg] at h
    rw [getEntry_freshExt hf hg]
    exact h

theorem readChildren_stable {s₁ s₂ : EditorState}
    (rec : Key → EditorState → Option JSON)
    (hrec : ∀ k j, rec k s₁ = some j → rec k s₂ = some j) :
    ∀ (cs : List Key) (js : List JSON),
      readChildren rec cs s₁ = some js → readChildren rec cs s₂ = some js := by
  intro cs
  induction cs with
  | nil => intro js h; exact h
  | cons c rest ih =>
    intro js h
    rw [readChildren] at h ⊢
    rcases hc : rec c s₁ with _ | j
    · rw [hc] at h
      cases h
    · rw [hc] at h
      rcases hr : readChildren rec rest s₁ with _ | js2
      · rw [hr] at h
        simp only at h
        cases h
      · rw [hr] at h
        rw [hrec c j hc]
        simp only at h ⊢
        rw [ih js2 hr]
        exact h

/-- A read that succeeds is unchanged by prepending entries under absent
keys (statement paired with the sibling `readArray` fact for the mutual
fuel induction). -/
theorem read_freshExt : ∀ rfuel : Nat,
    (∀ (k : Key) (s₁ s₂ : EditorState) (j : JSON), FreshExt s₁ s₂ →
      readNode rfuel k s₁ = some j → readNode rfuel k s₂ = some j) ∧
    (∀ (k : Key) (s₁ s₂ : EditorState) (j : JSON), FreshExt s₁ s₂ →
      readArray rfuel k s₁ = some j → readArray rfuel k s₂ = some j) := by
  intro rfuel
  induction rfuel with
  | zero =>
    refine ⟨?_, ?_⟩ <;> intro k s₁ s₂ j hf h
    · rw [readNode.eq_def] at h
      exact Option.noConfusion h
    · rw [readArray.eq_def] at h
      exact Option.noConfusion h
  | succ rfuel ih =>
    refine ⟨?_, ?_⟩ <;> intro k s₁ s₂ j hf h
    · rw [readNode.eq_def] at h ⊢
      simp only at h ⊢
      rcases hg : s₁.getEntry k with _ | e
      · rw [hg] at h
        cases h
      · rw [hg] at h
        rw [getEntry_freshExt hf hg]
        simp only at h ⊢
        split at h
        all_goals split at h
        all_goals try split at h
        all_goals first
          | exact h
          | exact Option.noConfusion h
          | (obtain ⟨js, hrc, hj⟩ := Option.map_eq_some'.mp h
             rw [readChildren_stable _ (fun k2 j2 hh => ih.1 k2 s₁ s₂ j2 hf hh) _ _ hrc, ← hj]
             rfl)
          | (obtain ⟨jc, hp, hj⟩ := Option.map_eq_some'.mp h
             rw [readPrim_freshExt hf hp, ← hj]
             rfl)
          | (rename_i heqt heqa
             rw [ih.2 _ s₁ s₂ _ hf heqt, ih.2 _ s₁ s₂ _ hf heqa]
             exact h)
          | (rename_i heqi heqa
             rw [readPrim_freshExt hf heqi, readPrim_freshExt hf heqa]
             exact h)
    · rw [readArray.eq_def] at h ⊢
      simp only at h ⊢
      rcases hg : s₁.getEntry k with _ | e
      · rw [hg] at h
        cases h
      · rw [hg] at h
        rw [getEntry_freshExt hf hg]
        simp only at h ⊢
        split at h
        all_goals first
          | exact Option.noConfusion h
          | (obtain ⟨js, hrc, hj⟩ := Option.map_eq_some'.mp h
             rw [readChildren_stable _ (fun k2 j2 hh => ih.1 k2 s₁ s₂ j2 hf hh) _ _ hrc, ← hj]
             rfl)

theorem json_sizeOf_pos (v : JSON) : 0 < sizeOf v := by
  cases v <;> simp

theorem jsonTag_of_valid {fuel : Nat} {t : NodeType} {x : JSON}
    (ht : t = .paragraph ∨ t = .multipleChoice ∨ t = .multipleChoiceAnswer)
    (h : validB fuel t x = true) : jsonTag x = some t := by
  cases fuel with
  | zero =>
    rw [validB.eq_def] at h
    simp only at h
    exact Bool.noConfusion h
  | succ fuel =>
    rcases ht with rfl | rfl | rfl <;> cases x <;>
      first
        | rfl
        | (rw [validB.eq_def] at h
           simp only at h
           exact Bool.noConfusion h)

theorem readNode_prim_eq (rfuel : Nat) (k : Key) (s : EditorState)
    (hk : k.type = .text ∨ k.type = .boolean) :
    readNode (rfuel + 1) k s = readPrim k s := by
  rw [readNode.eq_def]
  unfold readPrim
  simp only
  rcases hg : s.getEntry k with _ | e
  · rfl
  · rcases hk with hk | hk <;> rw [hk]

theorem readNode_array_eq (rfuel : Nat) (k : Key) (s : EditorState)
    (hk : k.type = .root ∨ k.type = .content ∨ k.type = .multipleChoiceAnswers) :
    readNode rfuel k s = readArray rfuel k s := by
  cases rfuel with
  | zero => rw [readNode.eq_def, readArray.eq_def]
  | succ rfuel =>
    rw [readNode.eq_def, readArray.eq_def]
    simp only
    rcases hg : s.getEntry k with _ | e
    · rfl
    · rcases hk with hk | hk | hk <;> rw [hk]

/-- The array handler's `children.map(child => insert(child).key)` fold:
every well-tagged, valid child inserts successfully, only fresh entries are
added, and reading the collected keys back in the final store returns the
original children in order. -/
theorem insertFold_valid_read (fuel : Nat)
    (IH : ∀ (t : NodeType) (v : JSON) (parent : Option Key) (s : EditorState),
      validB fuel t v = true → keyBound s →
      ∃ (e : Entry) (s' : EditorState),
        insertNode fuel t v parent s = (some e, s') ∧
        e.key = ⟨s.lastKey + 1, t⟩ ∧
        ∀ rfuel : Nat, sizeOf v ≤ rfuel → readNode rfuel e.key s' = some v)
    (key : Key) :
    ∀ (xs : List JSON) (ks₀ : List Key) (s₀ : EditorState),
      (∀ x ∈ xs, ∃ tg, jsonTag x = some tg ∧ validB fuel tg x = true) →
      keyBound s₀ →
      ∃ (newKeys : List Key) (s₂ : EditorState),
        xs.foldl (insertStep (fun t2 v2 p2 s2 => insertNode fuel t2 v2 p2 s2) key)
          (some ks₀, s₀) = (some (ks₀ ++ newKeys), s₂) ∧
        InsertsFresh s₀ s₂ ∧
        ∀ rfuel : Nat, (∀ x ∈ xs, sizeOf x ≤ rfuel) →
          readChildren (fun ck s3 => readNode rfuel ck s3) newKeys s₂ = some xs := by
  intro xs
  induction xs with
  | nil =>
    intro ks₀ s₀ hval hb
    refine ⟨[], s₀, ?_, insertsFresh_refl s₀, ?_⟩
    · rw [List.foldl_nil, List.append_nil]
    · intro rfuel hsz
      rfl
  | cons x rest ih =>
    intro ks₀ s₀ hval hb
    obtain ⟨tg, htag, hvx⟩ := hval x (List.mem_cons_self _ _)
    obtain ⟨e1, s1, hins1, hkey1, hread1⟩ := IH tg x (some key) s₀ hvx hb
    have hfresh1 : InsertsFresh s₀ s1 := by
      have hf := insertNode_fresh fuel tg x (some key) s₀
      rw [hins1] at hf
      exact hf
    have hb1 : keyBound s1 := insertsFresh_keyBound hb hfresh1
    obtain ⟨newKeys, s₂, hfold, hfresh, hreads⟩ :=
      ih (ks₀ ++ [e1.key]) s1 (fun y hy => hval y (List.mem_cons_of_mem _ hy)) hb1
    have hstep : insertStep (fun t2 v2 p2 s2 => insertNode fuel t2 v2 p2 s2) key
        (some ks₀, s₀) x = (some (ks₀ ++ [e1.key]), s1) := by
      rw [insertStep.eq_def]
      simp only
      rw [htag]
      simp only
      rw [hins1]
    refine ⟨e1.key :: newKeys, s₂, ?_, insertsFresh_trans hfresh1 hfresh, ?_⟩
    · rw [List.foldl_cons, hstep, hfold]
      simp [List.append_assoc]
    · intro rfuel hsz
      rw [readChildren]
      have hx1 : readNode rfuel e1.key s₂ = some x :=
        (read_freshExt rfuel).1 _ s1 s₂ _ (freshExt_of_insertsFresh hfresh hb1)
          (hread1 rfuel (hsz x (List.mem_cons_self _ _)))
      rw [hx1]
      simp only
      rw [hreads rfuel (fun y hy => hsz y (List.mem_cons_of_mem _ hy))]

/-- Inserting a valid external value always succeeds, hands back the entry
stored under the reserved key `lastKey + 1`, and reading that key in the
resulting store returns the value unchanged. -/
theorem insertNode_valid_read :
    ∀ (fuel : Nat) (t : NodeType) (v : JSON) (parent : Option Key) (s : EditorState),
      validB fuel t v = true → keyBound s →
      ∃ (e : Entry) (s' : EditorState),
        insertNode fuel t v parent s = (some e, s') ∧
        e.key = ⟨s.lastKey + 1, t⟩ ∧
        ∀ rfuel : Nat, sizeOf v ≤ rfuel → readNode rfuel e.key s' = some v := by
  intro fuel
  induction fuel with
  | zero =>
    intro t v parent s hv hb
    rw [validB.eq_def] at hv
    simp only at hv
    exact Bool.noConfusion hv
  | succ fuel ih =>
    intro t v parent s hv hb
    have hb1 : keyBound { s with lastKey := s.lastKey + 1 } :=
      insertsFresh_keyBound hb (insertsFresh_bump s)
    cases t with
    | text =>
      cases v
      all_goals rw [validB.eq_def] at hv
      all_goals simp only at hv
      all_goals try exact Bool.noConfusion hv
      rename_i cs
      refine ⟨⟨.text, ⟨s.lastKey + 1, .text⟩, parent, .str cs⟩, _, rfl, rfl, ?_⟩
      intro rfuel hr
      cases rfuel with
      | zero =>
        have := json_sizeOf_pos (.str cs)
        omega
      | succ r =>
        rw [readNode.eq_def]
        simp only
        rw [getEntry_set_self]
    | boolean =>
      cases v
      all_goals rw [validB.eq_def] at hv
      all_goals simp only at hv
      all_goals try exact Bool.noConfusion hv
      rename_i b
      refine ⟨⟨.boolean, ⟨s.lastKey + 1, .boolean⟩, parent, .bool b⟩, _, rfl, rfl, ?_⟩
      intro rfuel hr
      cases rfuel with
      | zero =>
        have := json_sizeOf_pos (.bool b)
        omega
      | succ r =>
        rw [readNode.eq_def]
        simp only
        rw [getEntry_set_self]
    | paragraph =>
      cases v
      all_goals rw [validB.eq_def] at hv
      all_goals simp only at hv
      all_goals try exact Bool.noConfusion hv
      rename_i c
      obtain ⟨ce, s₂, hins_c, hkey_c, hread_c⟩ :=
        ih .text c (some ⟨s.lastKey + 1, .paragraph⟩) { s with lastKey := s.lastKey + 1 } hv hb1
      have hfresh_c : InsertsFresh { s with lastKey := s.lastKey + 1 } s₂ := by
        have hf := insertNode_fresh fuel .text c (some ⟨s.lastKey + 1, .paragraph⟩)
          { s with lastKey := s.lastKey + 1 }
        rw [hins_c] at hf
        exact hf
      have hnotin := fresh_key_not_in hb hfresh_c ⟨s.lastKey + 1, .paragraph⟩ rfl
      refine ⟨⟨.paragraph, ⟨s.lastKey + 1, .paragraph⟩, parent, .wrap ce.key⟩,
        s₂.setEntry ⟨s.lastKey + 1, .paragraph⟩
          ⟨.paragraph, ⟨s.lastKey + 1, .paragraph⟩, parent, .wrap ce.key⟩, ?_, rfl, ?_⟩
      · rw [insertNode.eq_def]
        simp only [EditorState.genKey]
        rw [hins_c]
      · intro rfuel hr
        cases rfuel with
        | zero =>
          have := json_sizeOf_pos (.paragraph c)
          omega
        | succ r =>
          rw [readNode.eq_def]
          simp only
          rw [getEntry_set_self]
          simp only
          have hcpos := json_sizeOf_pos c
          obtain ⟨r0, hr0⟩ : ∃ r0, sizeOf c = r0 + 1 := ⟨sizeOf c - 1, by omega⟩
          have hprim : readPrim ce.key s₂ = some c := by
            rw [← readNode_prim_eq r0 ce.key s₂ (Or.inl (by rw [hkey_c]))]
            rw [← hr0]
            exact hread_c (sizeOf c) (le_refl _)
          rw [readPrim_freshExt (freshExt_setEntry _ hnotin) hprim]
          rfl
    | multipleChoice =>
      cases v
      all_goals rw [validB.eq_def] at hv
      all_goals simp only at hv
      all_goals try exact Bool.noConfusion hv
      rename_i ta an
      rw [Bool.and_eq_true] at hv
      obtain ⟨hv1, hv2⟩ := hv
      obtain ⟨te, s₂, hins_t, hkey_t, hread_t⟩ :=
        ih .content ta (some ⟨s.lastKey + 1, .multipleChoice⟩)
          { s with lastKey := s.lastKey + 1 } hv1 hb1
      have hfresh_t : InsertsFresh { s with lastKey := s.lastKey + 1 } s₂ := by
        have hf := insertNode_fresh fuel .content ta (some ⟨s.lastKey + 1, .multipleChoice⟩)
          { s with lastKey := s.lastKey + 1 }
        rw [hins_t] at hf
        exact hf
      have hb2 : keyBound s₂ := insertsFresh_keyBound hb1 hfresh_t
      obtain ⟨ae, s₃, hins_a, hkey_a, hread_a⟩ :=
        ih .multipleChoiceAnswers an (some ⟨s.lastKey + 1, .multipleChoice⟩) s₂ hv2 hb2
      have hfresh_a : InsertsFresh s₂ s₃ := by
        have hf := insertNode_fresh fuel .multipleChoiceAnswers an
          (some ⟨s.lastKey + 1, .multipleChoice⟩) s₂
        rw [hins_a] at hf
        exact hf
      have hb3 : keyBound s₃ := insertsFresh_keyBound hb2 hfresh_a
      have hnotin := fresh_key_not_in hb (insertsFresh_trans hfresh_t hfresh_a)
        ⟨s.lastKey + 1, .multipleChoice⟩ rfl
      refine ⟨⟨.multipleChoice, ⟨s.lastKey + 1, .multipleChoice⟩, parent, .mc te.key ae.key⟩,
        s₃.setEntry ⟨s.lastKey + 1, .multipleChoice⟩
          ⟨.multipleChoice, ⟨s.lastKey + 1, .multipleChoice⟩, parent, .mc te.key ae.key⟩,
        ?_, rfl, ?_⟩
      · rw [insertNode.eq_def]
        simp only [EditorState.genKey]
        rw [hins_t]
        simp only
        rw [hins_a]
      · intro rfuel hr
        cases rfuel with
        | zero =>
          have := json_sizeOf_pos (.multipleChoice ta an)
          omega
        | succ r =>
          rw [readNode.eq_def]
          simp only
          rw [getEntry_set_self]
          simp only
          have hvsz : sizeOf (JSON.multipleChoice ta an) = 1 + sizeOf ta + sizeOf an := by simp
          have hta : readArray r te.key
              (s₃.setEntry ⟨s.lastKey + 1, .multipleChoice⟩
                ⟨.multipleChoice, ⟨s.lastKey + 1, .multipleChoice⟩, parent,
                  .mc te.key ae.key⟩) = some ta := by
            refine (read_freshExt r).2 _ s₃ _ _ (freshExt_setEntry _ hnotin) ?_
            refine (read_freshExt r).2 _ s₂ _ _ (freshExt_of_insertsFresh hfresh_a hb2) ?_
            rw [← readNode_array_eq r te.key s₂ (Or.inr (Or.inl (by rw [hkey_t])))]
            exact hread_t r (by omega)
          have han : readArray r ae.key
              (s₃.setEntry ⟨s.lastKey + 1, .multipleChoice⟩
                ⟨.multipleChoice, ⟨s.lastKey + 1, .multipleChoice⟩, parent,
                  .mc te.key ae.key⟩) = some an := by
            refine (read_freshExt r).2 _ s₃ _ _ (freshExt_setEntry _ hnotin) ?_
            rw [← readNode_array_eq r ae.key s₃ (Or.inr (Or.inr (by rw [hkey_a])))]
            exact hread_a r (by omega)
          rw [hta, han]
    | multipleChoiceAnswer =>
      cases v
      all_goals rw [validB.eq_def] at hv
      all_goals simp only at hv
      all_goals try exact Bool.noConfusion hv
      rename_i ic an
      rw [Bool.and_eq_true] at hv
      obtain ⟨hv1, hv2⟩ := hv
      obtain ⟨be, s₂, hins_b, hkey_b, hread_b⟩ :=
        ih .boolean ic (some ⟨s.lastKey + 1, .multipleChoiceAnswer⟩)
          { s with lastKey := s.lastKey + 1 } hv1 hb1
      have hfresh_b : InsertsFresh { s with lastKey := s.lastKey + 1 } s₂ := by
        have hf := insertNode_fresh fuel .boolean ic (some ⟨s.lastKey + 1, .multipleChoiceAnswer⟩)
          { s with lastKey := s.lastKey + 1 }
        rw [hins_b] at hf
        exact hf
      have hb2 : keyBound s₂ := insertsFresh_keyBound hb1 hfresh_b
      obtain ⟨ansE, s₃, hins_n, hkey_n, hread_n⟩ :=
        ih .text an (some ⟨s.lastKey + 1, .multipleChoiceAnswer⟩) s₂ hv2 hb2
      have hfresh_n : InsertsFresh s₂ s₃ := by
        have hf := insertNode_fresh fuel .text an
          (some ⟨s.lastKey + 1, .multipleChoiceAnswer⟩) s₂
        rw [hins_n] at hf
        exact hf
      have hnotin := fresh_key_not_in hb (insertsFresh_trans hfresh_b hfresh_n)
        ⟨s.lastKey + 1, .multipleChoiceAnswer⟩ rfl
      refine ⟨⟨.multipleChoiceAnswer, ⟨s.lastKey + 1, .multipleChoiceAnswer⟩, parent,
          .mca be.key ansE.key⟩,
        s₃.setEntry ⟨s.lastKey + 1, .multipleChoiceAnswer⟩
          ⟨.multipleChoiceAnswer, ⟨s.lastKey + 1, .multipleChoiceAnswer⟩, parent,
            .mca be.key ansE.key⟩, ?_, rfl, ?_⟩
      · rw [insertNode.eq_def]
        simp only [EditorState.genKey]
        rw [hins_b]
        simp only
        rw [hins_n]
      · intro rfuel hr
        cases rfuel with
        | zero =>
          have := json_sizeOf_pos (.mcAnswer ic an)
          omega
        | succ r =>
          rw [readNode.eq_def]
          simp only
          rw [getEntry_set_self]
          simp only
          have hipos := json_sizeOf_pos ic
          have hnpos := json_sizeOf_pos an
          obtain ⟨ri, hri⟩ : ∃ ri, sizeOf ic = ri + 1 := ⟨sizeOf ic - 1, by omega⟩
          obtain ⟨rn, hrn⟩ : ∃ rn, sizeOf an = rn + 1 := ⟨sizeOf an - 1, by omega⟩
          have hprim_i : readPrim be.key s₂ = some ic := by
            rw [← readNode_prim_eq ri be.key s₂ (Or.inr (by rw [hkey_b]))]
            rw [← hri]
            exact hread_b (sizeOf ic) (le_refl _)
          have hprim_n : readPrim ansE.key s₃ = some an := by
            rw [← readNode_prim_eq rn ansE.key s₃ (Or.inl (by rw [hkey_n]))]
            rw [← hrn]
            exact hread_n (sizeOf an) (le_refl _)
          have hstab_i : readPrim be.key
              (s₃.setEntry ⟨s.lastKey + 1, .multipleChoiceAnswer⟩
                ⟨.multipleChoiceAnswer, ⟨s.lastKey + 1, .multipleChoiceAnswer⟩, parent,
                  .mca be.key ansE.key⟩) = some ic :=
            readPrim_freshExt (freshExt_setEntry _ hnotin)
              (readPrim_freshExt (freshExt_of_insertsFresh hfresh_n hb2) hprim_i)
          have hstab_n : readPrim ansE.key
              (s₃.setEntry ⟨s.lastKey + 1, .multipleChoiceAnswer⟩
                ⟨.multipleChoiceAnswer, ⟨s.lastKey + 1, .multipleChoiceAnswer⟩, parent,
                  .mca be.key ansE.key⟩) = some an :=
            readPrim_freshExt (freshExt_setEntry _ hnotin) hprim_n
          rw [hstab_i, hstab_n]
    | root =>
      cases v
      all_goals rw [validB.eq_def] at hv
      all_goals simp only at hv
      all_goals try exact Bool.noConfusion hv
      rename_i xs
      have hall : ∀ x ∈ xs, ∃ tg, jsonTag x = some tg ∧ validB fuel tg x = true := by
        intro x hx
        have h1 := List.all_eq_true.mp hv x hx
        rw [Bool.or_eq_true] at h1
        rcases h1 with h1 | h1
        · exact ⟨.paragraph, jsonTag_of_valid (Or.inl rfl) h1, h1⟩
        · exact ⟨.multipleChoice, jsonTag_of_valid (Or.inr (Or.inl rfl)) h1, h1⟩
      obtain ⟨newKeys, s₂, hfold, hfresh, hreads⟩ :=
        insertFold_valid_read fuel ih ⟨s.lastKey + 1, .root⟩ xs []
          { s with lastKey := s.lastKey + 1 } hall hb1
      have hnotin := fresh_key_not_in hb hfresh ⟨s.lastKey + 1, .root⟩ rfl
      refine ⟨⟨.root, ⟨s.lastKey + 1, .root⟩, parent, .arr ([] ++ newKeys)⟩,
        s₂.setEntry ⟨s.lastKey + 1, .root⟩
          ⟨.root, ⟨s.lastKey + 1, .root⟩, parent, .arr ([] ++ newKeys)⟩, ?_, rfl, ?_⟩
      · rw [insertNode.eq_def]
        simp only [EditorState.genKey]
        rw [hfold]
      · intro rfuel hr
        cases rfuel with
        | zero =>
          have := json_sizeOf_pos (.list xs)
          omega
        | succ r =>
          rw [readNode.eq_def]
          simp only
          rw [getEntry_set_self]
          simp only
          have hsz : ∀ x ∈ xs, sizeOf x ≤ r := by
            intro x hx
            have h1 := List.sizeOf_lt_of_mem hx
            have h2 : sizeOf (JSON.list xs) = 1 + sizeOf xs := by simp
            omega
          have hrc2 := readChildren_stable (fun ck s3 => readNode r ck s3)
            (fun k2 j2 hh => (read_freshExt r).1 k2 s₂ _ j2
              (freshExt_setEntry (⟨.root, ⟨s.lastKey + 1, .root⟩, parent, .arr newKeys⟩ : Entry) hnotin) hh)
            newKeys xs (hreads r hsz)
          rw [List.nil_append, hrc2]
          rfl
    | content =>
      cases v
      all_goals rw [validB.eq_def] at hv
      all_goals simp only at hv
      all_goals try exact Bool.noConfusion hv
      rename_i xs
      have hall : ∀ x ∈ xs, ∃ tg, jsonTag x = some tg ∧ validB fuel tg x = true := by
        intro x hx
        have h1 := List.all_eq_true.mp hv x hx
        exact ⟨.paragraph, jsonTag_of_valid (Or.inl rfl) h1, h1⟩
      obtain ⟨newKeys, s₂, hfold, hfresh, hreads⟩ :=
        insertFold_valid_read fuel ih ⟨s.lastKey + 1, .content⟩ xs []
          { s with lastKey := s.lastKey + 1 } hall hb1
      have hnotin := fresh_key_not_in hb hfresh ⟨s.lastKey + 1, .content⟩ rfl
      refine ⟨⟨.content, ⟨s.lastKey + 1, .content⟩, parent, .arr ([] ++ newKeys)⟩,
        s₂.setEntry ⟨s.lastKey + 1, .content⟩
          ⟨.content, ⟨s.lastKey + 1, .content⟩, parent, .arr ([] ++ newKeys)⟩, ?_, rfl, ?_⟩
      · rw [insertNode.eq_def]
        simp only [EditorState.genKey]
        rw [hfold]
      · intro rfuel hr
        cases rfuel with
        | zero =>
          have := json_sizeOf_pos (.list xs)
          omega
        | succ r =>
          rw [readNode.eq_def]
          simp only
          rw [getEntry_set_self]
          simp only
          have hsz : ∀ x ∈ xs, sizeOf x ≤ r := by
            intro x hx
            have h1 := List.sizeOf_lt_of_mem hx
            have h2 : sizeOf (JSON.list xs) = 1 + sizeOf xs := by simp
            omega
          have hrc2 := readChildren_stable (fun ck s3 => readNode r ck s3)
            (fun k2 j2 hh => (read_freshExt r).1 k2 s₂ _ j2
              (freshExt_setEntry (⟨.content, ⟨s.lastKey + 1, .content⟩, parent, .arr newKeys⟩ : Entry) hnotin) hh)
            newKeys xs (hreads r hsz)
          rw [List.nil_append, hrc2]
          rfl
    | multipleChoiceAnswers =>
      cases v
      all_goals rw [validB.eq_def] at hv
      all_goals simp only at hv
      all_goals try exact Bool.noConfusion hv
      rename_i xs
      have hall : ∀ x ∈ xs, ∃ tg, jsonTag x = some tg ∧ validB fuel tg x = true := by
        intro x hx
        have h1 := List.all_eq_true.mp hv x hx
        exact ⟨.multipleChoiceAnswer, jsonTag_of_valid (Or.inr (Or.inr rfl)) h1, h1⟩
      obtain ⟨newKeys, s₂, hfold, hfresh, hreads⟩ :=
        insertFold_valid_read fuel ih ⟨s.lastKey + 1, .multipleChoiceAnswers⟩ xs []
          { s with lastKey := s.lastKey + 1 } hall hb1
      have hnotin := fresh_key_not_in hb hfresh ⟨s.lastKey + 1, .multipleChoiceAnswers⟩ rfl
      refine ⟨⟨.multipleChoiceAnswers, ⟨s.lastKey + 1, .multipleChoiceAnswers⟩, parent,
          .arr ([] ++ newKeys)⟩,
        s₂.setEntry ⟨s.lastKey + 1, .multipleChoiceAnswers⟩
          ⟨.multipleChoiceAnswers, ⟨s.lastKey + 1, .multipleChoiceAnswers⟩, parent,
            .arr ([] ++ newKeys)⟩, ?_, rfl, ?_⟩
      · rw [insertNode.eq_def]
        simp only [EditorState.genKey]
        rw [hfold]
      · intro rfuel hr
        cases rfuel with
        | zero =>
          have := json_sizeOf_pos (.list xs)
          omega
        | succ r =>
          rw [readNode.eq_def]
          simp only
          rw [getEntry_set_self]
          simp only
          have hsz : ∀ x ∈ xs, sizeOf x ≤ r := by
            intro x hx
            have h1 := List.sizeOf_lt_of_mem hx
            have h2 : sizeOf (JSON.list xs) = 1 + sizeOf xs := by simp
            omega
          have hrc2 := readChildren_stable (fun ck s3 => readNode r ck s3)
            (fun k2 j2 hh => (read_freshExt r).1 k2 s₂ _ j2
              (freshExt_setEntry (⟨.multipleChoiceAnswers, ⟨s.lastKey + 1, .multipleChoiceAnswers⟩, parent,
                .arr newKeys⟩ : Entry) hnotin) hh)
            newKeys xs (hreads r hsz)
          rw [List.nil_append, hrc2]
          rfl

/-- Claim C1: read ∘ insert identity.  For every valid external value `v`
of any supported kind — including nested array/object/wrapped
compositions — inserting `v` via the kind's handler succeeds, and calling
`read` on the returned entry's key yields a value structurally equal to
`v` (for any read fuel at least `sizeOf v`; the source recursion is
unbounded). -/
theorem c1_read_insert_identity (fuel rfuel : Nat) (t : NodeType) (v : JSON)
    (parent : Option Key) (s : EditorState)
    (hv : validB fuel t v = true) (hb : keyBound s) (hr : sizeOf v ≤ rfuel) :
    ∃ (e : Entry) (s' : EditorState),
      insertNode fuel t v parent s = (some e, s') ∧
      readNode rfuel e.key s' = some v := by
  obtain ⟨e, s', h1, h2, h3⟩ := insertNode_valid_read fuel t v parent s hv hb
  exact ⟨e, s', h1, h3 rfuel hr⟩

/-- The identity holds concretely for the nested multiple-choice sample
inserted into a fresh store. -/
theorem c1_read_insert_identity_witness :
    (validB 9 .multipleChoice mcSample = true ∧ keyBound initState ∧
      sizeOf mcSample ≤ 99999) ∧
    ∃ (e : Entry) (s' : EditorState),
      insertNode 9 .multipleChoice mcSample none initState = (some e, s') ∧
      readNode 99999 e.key s' = some mcSample :=
  ⟨⟨by decide, by decide, by decide⟩,
    c1_read_insert_identity 9 99999 .multipleChoice mcSample none initState
      (by decide) (by decide) (by decide)⟩
